import Mathlib

/-!
Shallow embedding of the fmark bookmark-index core (src/bookmark.rs,
src/parsed_file.rs, src/plain_text.rs) and proofs about it.

Rust strings (`String` / `&str`) are modelled as `List Char`; `chars().count()`
is `List.length`, `String::len` (a byte count) is `utf8Len`.  `HashMap` is
modelled as an association list with first-occurrence key semantics (every map
built by the code has distinct keys, so lookup / in-place replace / remove on
the first occurrence is faithful); iteration order of `values()` is the list
order, and permutation-invariance of the renderer is proved separately.
`usize` is modelled as `Nat`; the one place where wrap-around is reachable
(the category reference-count decrement, which Rust would underflow on a
zero count) uses an explicit `% 2^64`.
-/

set_option maxRecDepth 200000

namespace Fmark

abbrev Str := List Char

/-- `{`, written via its code so the delimiter is explicit. -/
def segStart : Char := '\x7b'

/-- `}`. -/
def segEnd : Char := '\x7d'

/-- Rust `char::is_whitespace` (the Unicode White_Space code points). -/
def rustIsWhitespace (c : Char) : Bool :=
  (0x9 ≤ c.val && c.val ≤ 0xD) || c.val == 0x20 || c.val == 0x85 || c.val == 0xA0 ||
  c.val == 0x1680 || (0x2000 ≤ c.val && c.val ≤ 0x200A) || c.val == 0x2028 ||
  c.val == 0x2029 || c.val == 0x202F || c.val == 0x205F || c.val == 0x3000

/-- Rust `str::trim`. -/
def rustTrim (s : Str) : Str :=
  ((s.dropWhile rustIsWhitespace).reverse.dropWhile rustIsWhitespace).reverse

/-- A `\r` left at the end of a `\n`-terminated line is stripped. -/
def stripCR (s : Str) : Str :=
  if s.getLast? = some '\r' then s.dropLast else s

/-- Worker for `rustLines`: `acc` holds the current (unterminated) line in
reverse.  A `\n` terminates a line (whose trailing `\r`, if any, is dropped);
a final unterminated line is emitted as-is, and a trailing newline does not
produce an extra empty line. -/
def rustLinesGo (acc : Str) : Str → List Str
  | [] => if acc.isEmpty then [] else [acc.reverse]
  | c :: rest =>
      if c = '\n' then stripCR acc.reverse :: rustLinesGo [] rest
      else rustLinesGo (c :: acc) rest

/-- Rust `str::lines`. -/
def rustLines (s : Str) : List Str := rustLinesGo [] s

/-- Byte length of one character under UTF-8. -/
def utf8CharLen (c : Char) : Nat :=
  if c.val < 0x80 then 1 else if c.val < 0x800 then 2 else if c.val < 0x10000 then 3 else 4

/-- Rust `String::len` (UTF-8 byte count). -/
def utf8Len (s : Str) : Nat := (s.map utf8CharLen).foldr (· + ·) 0

def TITLE_MARKER : Char := 'T'
def CATEGORY_MARKER : Char := 'C'
def URL_MARKER : Char := 'U'
def TITLE_MAX_LENGTH : Nat := 35
def CATEGORY_MAX_LENGTH : Nat := 35
def URL_MAX_LENGTH : Nat := 2048
def SEPARATOR_LINE_SYMBOL : Char := '-'
def ADD_BOOKMARK : Str := ("-| Add Bookmark |-").data

structure Bookmark where
  title : Str
  category : Str
  url : Str
deriving DecidableEq, Repr

def spaces (n : Nat) : Str := List.replicate n ' '

/-- `Bookmark::to_line` (src/bookmark.rs).  Nat subtraction is saturating,
matching `usize::saturating_sub`; Rust string-format precision truncates to a
number of characters, hence `List.take`; the URL ceiling check measures bytes. -/
def Bookmark.to_line (b : Bookmark) (title_padding category_padding : Nat) : Str :=
  let title_char_count := b.title.length
  let tp := if TITLE_MAX_LENGTH - 1 ≤ title_padding
            then TITLE_MAX_LENGTH - title_char_count + 1
            else title_padding - title_char_count + 1
  let category_char_count := b.category.length
  let cp := if CATEGORY_MAX_LENGTH - 1 ≤ category_padding
            then CATEGORY_MAX_LENGTH - category_char_count + 1
            else category_padding - category_char_count + 1
  let title := if TITLE_MAX_LENGTH < title_char_count then b.title.take TITLE_MAX_LENGTH else b.title
  let category := if CATEGORY_MAX_LENGTH < category_char_count
                  then b.category.take CATEGORY_MAX_LENGTH else b.category
  let url := if URL_MAX_LENGTH < utf8Len b.url then b.url.take URL_MAX_LENGTH else b.url
  [segStart, TITLE_MARKER, segEnd, segStart] ++ title ++ [segEnd] ++ spaces tp ++
  [segStart, CATEGORY_MARKER, segEnd, segStart] ++ category ++ [segEnd] ++ spaces cp ++
  [segStart, URL_MARKER, segEnd, segStart] ++ url ++ [segEnd] ++ ['\n']

structure ScanState where
  segments : List Str
  segment : Str
  capture : Bool
deriving DecidableEq, Repr

/-- One iteration of the character loop in `Bookmark::from_line`. -/
def scanStep (st : ScanState) (c : Char) : ScanState :=
  let st1 := if c = segStart ∧ st.capture = false then
               { st with capture := true, segment := [] }
             else if c = '\n' ∧ st.capture = true then
               { st with capture := false, segment := [] }
             else st
  let st2 := if st1.capture then { st1 with segment := st1.segment ++ [c] } else st1
  if c = segEnd ∧ st2.capture = true then
    { st2 with
      capture := false
      segments := if st2.segment.isEmpty then st2.segments else st2.segments ++ [st2.segment] }
  else st2

def isBrace (c : Char) : Bool := c == segStart || c == segEnd

/-- Rust `trim_matches(&['{','}'])`: strip leading and trailing braces. -/
def trimBraces (s : Str) : Str :=
  ((s.dropWhile isBrace).reverse.dropWhile isBrace).reverse

/-- The marker-matching loop over the three (marker, field) segment pairs. -/
def extractLoop : List (Str × Str) → Option Str × Option Str × Option Str →
    Option Str × Option Str × Option Str
  | [], acc => acc
  | (m, f) :: rest, (t, c, u) =>
      let marker := rustTrim (trimBraces m)
      let field := rustTrim (trimBraces f)
      if marker = [TITLE_MARKER] then extractLoop rest (some field, c, u)
      else if marker = [CATEGORY_MARKER] then extractLoop rest (t, some field, u)
      else if marker = [URL_MARKER] then extractLoop rest (t, c, some field)
      else extractLoop rest (t, c, u)

/-- `Bookmark::from_line` (src/bookmark.rs). -/
def Bookmark.from_line (line : Str) : Option Bookmark :=
  let st := line.foldl scanStep ⟨[], [], false⟩
  match st.segments with
  | [s0, s1, s2, s3, s4, s5] =>
      match extractLoop [(s0, s1), (s2, s3), (s4, s5)] (none, none, none) with
      | (some t, some c, some u) => some ⟨t, c, u⟩
      | _ => none
  | _ => none

/-! ## Association-list model of `HashMap`, and `Vec` index helpers -/

def aget {κ ν : Type} [DecidableEq κ] (k : κ) : List (κ × ν) → Option ν
  | [] => none
  | (k2, v) :: t => if k2 = k then some v else aget k t

/-- `HashMap::insert` / writing through `get_mut`: replace the first entry with
this key in place, or append a fresh entry. -/
def ainsert {κ ν : Type} [DecidableEq κ] (k : κ) (v : ν) : List (κ × ν) → List (κ × ν)
  | [] => [(k, v)]
  | (k2, w) :: t => if k2 = k then (k, v) :: t else (k2, w) :: ainsert k v t

/-- `HashMap::remove` (the entry part; the returned value is `aget`). -/
def aerase {κ ν : Type} [DecidableEq κ] (k : κ) : List (κ × ν) → List (κ × ν)
  | [] => []
  | (k2, w) :: t => if k2 = k then t else (k2, w) :: aerase k t

/-- `Vec::insert(index, x)`. -/
def vinsert {α : Type} (i : Nat) (x : α) : List α → List α
  | [] => [x]
  | y :: t => match i with
      | 0 => x :: y :: t
      | n + 1 => y :: vinsert n x t

/-- `Vec::remove(index)` (entry part). -/
def vremove {α : Type} (i : Nat) : List α → List α
  | [] => []
  | y :: t => match i with
      | 0 => t
      | n + 1 => y :: vremove n t

/-- Comparison of two chars by code point; on ASCII data this is exactly the
byte order `Ord` of Rust strings. -/
def cmpCharByVal (a b : Char) : Ordering :=
  if a.toNat < b.toNat then .lt else if b.toNat < a.toNat then .gt else .eq

/-- Rust `String: Ord` is byte-lexicographic; UTF-8 byte order coincides with
code-point lexicographic order. -/
def strCmp : Str → Str → Ordering
  | [], [] => .eq
  | [], _ :: _ => .lt
  | _ :: _, [] => .gt
  | a :: x, b :: y => match cmpCharByVal a b with
      | .eq => strCmp x y
      | o => o

/-- The loop of `slice::binary_search` (probe compared against target; `Ok`
on equality, otherwise the insertion point).  Run with fuel `len + 1`, which
exceeds the iteration count since `right - left` shrinks every round. -/
def binary_search_go (l : List Str) (t : Str) : Nat → Nat → Nat → Except Nat Nat
  | 0, left, _ => .error left
  | fuel + 1, left, right =>
      if right ≤ left then .error left
      else
        let mid := left + (right - left) / 2
        match strCmp (l.getD mid []) t with
        | .lt => binary_search_go l t fuel (mid + 1) right
        | .gt => binary_search_go l t fuel left mid
        | .eq => .ok mid

def binary_search (l : List Str) (t : Str) : Except Nat Nat :=
  binary_search_go l t (l.length + 1) 0 l.length

/-! ## The width-histogram helpers (`ParsedFile::add_char_count` / `remove_char_count`) -/

/-- `vec.get_mut(i)` succeeds exactly when `i < vec.len()`; `List.set` is a
no-op out of range, matching the `None` branch. -/
def add_char_count (vec : List Nat) (longest : Nat) (field : Str) : List Nat × Nat :=
  let char_count := field.length
  if char_count = 0 then (vec, longest)
  else
    let longest2 := if longest < char_count then char_count else longest
    let vec2 := if char_count < vec.length then vec.set char_count (vec.getD char_count 0 + 1) else vec
    (vec2, longest2)

/-- The downward scan `for i in (1..=char_count).rev()` looking for a nonzero
bucket, returning 0 when all are empty. -/
def scanDown (vec : List Nat) : Nat → Nat
  | 0 => 0
  | i + 1 => if 0 < vec.getD (i + 1) 0 then i + 1 else scanDown vec i

/-- `ParsedFile::remove_char_count`.  The `usize` decrement is modelled by
saturating `Nat` subtraction: the bucket is nonzero whenever a tracked field is
removed (anything else would already be an underflow panic in a debug build). -/
def remove_char_count (vec : List Nat) (longest : Nat) (field : Str) : List Nat × Nat :=
  let char_count := field.length
  if char_count = 0 then (vec, longest)
  else if char_count < vec.length then
    let amount := vec.getD char_count 0 - 1
    let vec2 := vec.set char_count amount
    if amount = 0 ∧ char_count = longest then (vec2, scanDown vec2 char_count)
    else (vec2, longest)
  else (vec, longest)

/-! ## `ParsedFile` and `PlainText` -/

structure ParsedFile where
  bookmarks : List (Str × Bookmark)
  titles_char_count : List Nat
  longest_title : Nat
  invalid_lines : List (Nat × Str)
  categories : List Str
  category_count : List (Str × Nat)
  categories_char_count : List Nat
  longest_category : Nat
deriving DecidableEq, Repr

/-- The file path plays no role in the index logic and is omitted. -/
structure PlainText where
  bookmarks : Str
  previous_bookmarks_version : Nat
  current_bookmarks_version : Nat
  bookmarks_initialized : Bool
  categories : Str
  previous_categories_version : Nat
  current_categories_version : Nat
  categories_initialized : Bool
  edited : Bool
deriving DecidableEq, Repr

def PlainText.new : PlainText := ⟨[], 0, 0, false, [], 0, 0, false, false⟩

def PlainText.increment_bookmarks_version (pt : PlainText) : PlainText :=
  { pt with current_bookmarks_version := pt.current_bookmarks_version + 1 }

def PlainText.increment_categories_version (pt : PlainText) : PlainText :=
  { pt with current_categories_version := pt.current_categories_version + 1 }

def PlainText.set_edited_true (pt : PlainText) : PlainText := { pt with edited := true }

def rustIsAsciiAlphabetic (c : Char) : Bool := ('A' ≤ c && c ≤ 'Z') || ('a' ≤ c && c ≤ 'z')

def rustIsAsciiDigit (c : Char) : Bool := '0' ≤ c && c ≤ '9'

/-- `String::to_lowercase` applied char-wise; the input here is always the
output of the ASCII-alphanumeric filter, on which Unicode lowercasing is
exactly the ASCII shift by 32. -/
def rustToLowercaseChar (c : Char) : Char :=
  if 'A' ≤ c && c ≤ 'Z' then Char.ofNat (c.toNat + 32) else c

def sortKey (s : Str) : Str :=
  (s.filter (fun c => rustIsAsciiAlphabetic c || rustIsAsciiDigit c)).map rustToLowercaseChar

/-- `PlainText::alphabetic_sort` (src/plain_text.rs). -/
def PlainText.alphabetic_sort (a b : Str) : Ordering := strCmp (sortKey a) (sortKey b)

/-- Stable insertion sort by a comparator: the model of `Vec::sort_by` (which
is a stable sort, so equal-comparing elements keep their input order). -/
def insertByCmp {α : Type} (cmp : α → α → Ordering) (x : α) : List α → List α
  | [] => [x]
  | y :: t => if cmp x y = .gt then y :: insertByCmp cmp x t else x :: y :: t

def sortByCmp {α : Type} (cmp : α → α → Ordering) (l : List α) : List α :=
  l.foldr (insertByCmp cmp) []

/-- `usize` arithmetic for the category reference counts, with explicit
wrap-around: the decrement can genuinely reach `0 - 1` in Rust. -/
def W64 : Nat := 2 ^ 64

def countInc (c : Nat) : Nat := (c + 1) % W64

def countDec (c : Nat) : Nat := (c + (W64 - 1)) % W64

def ParsedFile.add_titles_char_count (pf : ParsedFile) (title : Str) : ParsedFile :=
  let p := add_char_count pf.titles_char_count pf.longest_title title
  { pf with
    titles_char_count := p.1
    longest_title := p.2 }

def ParsedFile.remove_titles_char_count (pf : ParsedFile) (title : Str) : ParsedFile :=
  let p := remove_char_count pf.titles_char_count pf.longest_title title
  { pf with
    titles_char_count := p.1
    longest_title := p.2 }

def ParsedFile.add_category_char_count (pf : ParsedFile) (category : Str) : ParsedFile :=
  let p := add_char_count pf.categories_char_count pf.longest_category category
  { pf with
    categories_char_count := p.1
    longest_category := p.2 }

def ParsedFile.remove_category_char_count (pf : ParsedFile) (category : Str) : ParsedFile :=
  let p := remove_char_count pf.categories_char_count pf.longest_category category
  { pf with
    categories_char_count := p.1
    longest_category := p.2 }

/-- `ParsedFile::add_category` (src/parsed_file.rs 122-137). -/
def ParsedFile.add_category (pf : ParsedFile) (category : Str) : ParsedFile × Bool :=
  match aget category pf.category_count with
  | some count =>
      ({ pf with category_count := ainsert category (countInc count) pf.category_count }, false)
  | none =>
      let pf1 := { pf with category_count := ainsert category 1 pf.category_count }
      match binary_search pf1.categories category with
      | .error index =>
          let pf2 := pf1.add_category_char_count category
          ({ pf2 with categories := vinsert index category pf2.categories }, true)
      | .ok _ => (pf1, false)

/-- `ParsedFile::remove_category` (src/parsed_file.rs 139-151). -/
def ParsedFile.remove_category (pf : ParsedFile) (category : Str) : ParsedFile × Bool :=
  match aget category pf.category_count with
  | some count =>
      let c2 := countDec count
      let pf1 := { pf with category_count := ainsert category c2 pf.category_count }
      if c2 = 0 then
        match binary_search pf1.categories category with
        | .ok index =>
            let pf2 := pf1.remove_category_char_count category
            ({ pf2 with categories := vremove index pf2.categories }, true)
        | .error _ => (pf1, false)
      else (pf1, false)
  | none => (pf, false)

/-- `ParsedFile::add_bookmark` (src/parsed_file.rs 61-70). -/
def ParsedFile.add_bookmark (pf : ParsedFile) (pt : PlainText) (new_bookmark : Bookmark) :
    ParsedFile × PlainText :=
  let p := pf.add_category new_bookmark.category
  let pt1 := if p.2 then pt.increment_categories_version else pt
  let pf1 := p.1.add_titles_char_count new_bookmark.title
  let pf2 := { pf1 with bookmarks := ainsert new_bookmark.url new_bookmark pf1.bookmarks }
  (pf2, pt1.increment_bookmarks_version.set_edited_true)

/-- `ParsedFile::modify_bookmark` (src/parsed_file.rs 72-108). -/
def ParsedFile.modify_bookmark (pf : ParsedFile) (pt : PlainText)
    (new_bookmark old_bookmark : Bookmark) : ParsedFile × PlainText :=
  if old_bookmark = new_bookmark then (pf, pt)
  else
    let pf1 := if old_bookmark.title ≠ new_bookmark.title then
        (pf.remove_titles_char_count old_bookmark.title).add_titles_char_count new_bookmark.title
      else pf
    let pc := if old_bookmark.category ≠ new_bookmark.category then
        let r := pf1.remove_category old_bookmark.category
        let a := r.1.add_category new_bookmark.category
        (a.1, r.2 || a.2)
      else (pf1, false)
    let pt1 := if pc.2 then pt.increment_categories_version else pt
    let pf2 := if old_bookmark.url ≠ new_bookmark.url then
        { pc.1 with
          bookmarks := ainsert new_bookmark.url new_bookmark (aerase old_bookmark.url pc.1.bookmarks) }
      else
        { pc.1 with bookmarks := ainsert old_bookmark.url new_bookmark pc.1.bookmarks }
    (pf2, pt1.increment_bookmarks_version.set_edited_true)

/-- `ParsedFile::remove_bookmark` (src/parsed_file.rs 110-120). -/
def ParsedFile.remove_bookmark (pf : ParsedFile) (pt : PlainText) (url : Str) :
    ParsedFile × PlainText :=
  match aget url pf.bookmarks with
  | none => (pf, pt)
  | some bookmark =>
      let pf1 := { pf with bookmarks := aerase url pf.bookmarks }
      let p := pf1.remove_category bookmark.category
      let pt1 := if p.2 then pt.increment_categories_version else pt
      let pf2 := p.1.remove_titles_char_count bookmark.title
      (pf2, pt1.increment_bookmarks_version.set_edited_true)

def emptyParsedFile : ParsedFile :=
  ⟨[], List.replicate (TITLE_MAX_LENGTH + 1) 0, 0, [], [], [],
   List.replicate (CATEGORY_MAX_LENGTH + 1) 0, 0⟩

def startsWithSep (s : Str) : Bool :=
  match s with
  | [] => false
  | c :: _ => c == SEPARATOR_LINE_SYMBOL

/-- The `for (i, line) in lines.enumerate()` loop of `ParsedFile::new`. -/
def parseLines : Nat → List Str → ParsedFile → ParsedFile
  | _, [], pf => pf
  | i, line :: rest, pf =>
      let trimmed_line := rustTrim line
      if startsWithSep trimmed_line then parseLines (i + 1) rest pf
      else
        match Bookmark.from_line trimmed_line with
        | some bookmark =>
            let pf1 := pf.add_titles_char_count bookmark.title
            let pf2 := (pf1.add_category bookmark.category).1
            let pf3 := { pf2 with bookmarks := ainsert bookmark.url bookmark pf2.bookmarks }
            parseLines (i + 1) rest pf3
        | none =>
            parseLines (i + 1) rest { pf with invalid_lines := pf.invalid_lines ++ [(i, line)] }

/-- `ParsedFile::new` (src/parsed_file.rs 19-55). -/
def ParsedFile.new (plain_text_bookmarks : Str) : ParsedFile :=
  let pf := parseLines 0 (rustLines plain_text_bookmarks) emptyParsedFile
  { pf with categories := sortByCmp PlainText.alphabetic_sort pf.categories }

/-! ## The renderer (`PlainText::update_bookmarks` / `update_categories`) -/

def formatted_add_bookmark (parsed_file : ParsedFile) : Str :=
  let padding := (parsed_file.longest_title + parsed_file.longest_category + 8) - ADD_BOOKMARK.length
  let left_padding := padding / 2
  let right_padding := padding - left_padding
  List.replicate left_padding SEPARATOR_LINE_SYMBOL ++ ADD_BOOKMARK ++
    List.replicate right_padding SEPARATOR_LINE_SYMBOL ++ ['\n']

/-- The record comparator of `update_bookmarks`: category, then title. -/
def recordCmp (a b : Bookmark) : Ordering :=
  let cat_ordering := PlainText.alphabetic_sort a.category b.category
  if cat_ordering = .eq then PlainText.alphabetic_sort a.title b.title else cat_ordering

/-- One iteration of the `for i in 0..combined_len` render loop; state is the
accumulated text together with `current_category`. -/
def renderStep (pf : ParsedFile) (vec : List Bookmark) (sep : Str)
    (st : Str × Option Str) (i : Nat) : Str × Option Str :=
  match aget i pf.invalid_lines with
  | some line => (st.1 ++ line ++ ['\n'], st.2)
  | none =>
      if i < vec.length then
        let b := vec.getD i ⟨[], [], []⟩
        let text1 := match st.2 with
          | some cat => if cat ≠ b.category then st.1 ++ sep else st.1
          | none => st.1
        (text1 ++ b.to_line pf.longest_title pf.longest_category, some b.category)
      else st

/-- `PlainText::update_bookmarks` (src/plain_text.rs 109-158). -/
def PlainText.update_bookmarks (pt : PlainText) (parsed_file : ParsedFile) : PlainText :=
  if pt.previous_bookmarks_version = pt.current_bookmarks_version ∧
      pt.bookmarks_initialized = true then pt
  else
    let bookmarks_vec := sortByCmp recordCmp (parsed_file.bookmarks.map Prod.snd)
    let separator_line := List.replicate
        (parsed_file.longest_title + parsed_file.longest_category + 8) SEPARATOR_LINE_SYMBOL ++ ['\n']
    let combined_len := bookmarks_vec.length + parsed_file.invalid_lines.length
    let st := (List.range combined_len).foldl
        (renderStep parsed_file bookmarks_vec separator_line)
        (formatted_add_bookmark parsed_file, none)
    { pt with
      bookmarks := st.1
      previous_bookmarks_version := pt.current_bookmarks_version
      bookmarks_initialized := true }

/-- `PlainText::update_categories` (src/plain_text.rs 160-175). -/
def PlainText.update_categories (pt : PlainText) (parsed_file : ParsedFile) : PlainText :=
  if pt.previous_categories_version = pt.current_categories_version ∧
      pt.categories_initialized = true then pt
  else
    { pt with
      categories := (parsed_file.categories.map (fun category => category ++ ['\n'])).join
      previous_categories_version := pt.current_categories_version
      categories_initialized := true }

/-! ## Operation sequences over the index -/

inductive FOp where
  | fadd (b : Bookmark)
  | fmodify (new_bookmark old_bookmark : Bookmark)
  | fremove (url : Str)
deriving DecidableEq, Repr

def applyOp (s : ParsedFile × PlainText) : FOp → ParsedFile × PlainText
  | .fadd b => s.1.add_bookmark s.2 b
  | .fmodify nb ob => s.1.modify_bookmark s.2 nb ob
  | .fremove u => s.1.remove_bookmark s.2 u

def applyOps (s : ParsedFile × PlainText) (ops : List FOp) : ParsedFile × PlainText :=
  ops.foldl applyOp s

/-- Well-formed use of the mutation interface, as the surrounding menu code
uses it: `add` only under a fresh URL, `modify` passing the record currently
stored under the old URL and not colliding with another URL; plus the ceiling
on title widths under which the histogram tracks them.  Removal is always
allowed (the code itself guards it). -/
def opWfB (pf : ParsedFile) : FOp → Bool
  | .fadd b => decide (aget b.url pf.bookmarks = none) &&
      decide (b.title.length ≤ TITLE_MAX_LENGTH)
  | .fmodify nb ob => decide (aget ob.url pf.bookmarks = some ob) &&
      (decide (nb.url = ob.url) || decide (aget nb.url pf.bookmarks = none)) &&
      decide (nb.title.length ≤ TITLE_MAX_LENGTH)
  | .fremove _ => true

def seqWfB : ParsedFile × PlainText → List FOp → Bool
  | _, [] => true
  | s, op :: rest => opWfB s.1 op && seqWfB (applyOp s op) rest

/-! ## Invariant vocabulary for the width histogram -/

/-- Maximum of a list of naturals, 0 when empty. -/
def maxL (l : List Nat) : Nat := l.foldr max 0

/-- Title widths of the currently-live records, in store order. -/
def liveTitleLens (pf : ParsedFile) : List Nat :=
  pf.bookmarks.map (fun kv => kv.2.title.length)

/-- The histogram `vec` together with the cached `longest` correctly describe
the multiset `lens` of live field widths (all of which are within the ceiling). -/
def HistInv (vec : List Nat) (longest : Nat) (lens : List Nat) : Prop :=
  vec.length = TITLE_MAX_LENGTH + 1 ∧
  (∀ l ∈ lens, l ≤ TITLE_MAX_LENGTH) ∧
  (∀ l, 1 ≤ l → vec.getD l 0 = lens.count l) ∧
  longest = maxL lens

def TitleInv (pf : ParsedFile) : Prop :=
  HistInv pf.titles_char_count pf.longest_title (liveTitleLens pf)

/-- The records a parse of `text` produces, in file order (the lines that are
not separator-prefixed and decode). -/
def parsedRecords (text : Str) : List Bookmark :=
  (rustLines text).filterMap (fun line =>
    let t := rustTrim line
    if startsWithSep t then none else Bookmark.from_line t)

/-! ## Reference-count crossing vocabulary (claim C8) -/

/-- A category's reference count as the rendering layer sees it (0 when the
name has no entry). -/
def countVal (pf : ParsedFile) (c : Str) : Nat := (aget c pf.category_count).getD 0

/-- The category names whose reference count an operation can touch. -/
def opCats (pf : ParsedFile) : FOp → List Str
  | .fadd b => [b.category]
  | .fmodify nb ob => [ob.category, nb.category]
  | .fremove u => match aget u pf.bookmarks with
      | some bk => [bk.category]
      | none => []

/-- A reference count crossed the 0↔1 boundary between two states. -/
def crosses01 (pre post : Nat) : Prop := (pre = 0 ∧ post ≠ 0) ∨ (pre ≠ 0 ∧ post = 0)

def noCrossing (pf post : ParsedFile) (cats : List Str) : Prop :=
  ∀ c ∈ cats, ¬ crosses01 (countVal pf c) (countVal post c)

/-! ## Reference ordering for claim C9 -/

/-- The key of the spec's reference ordering: ASCII letters and digits only,
lowercased (stated via the standard library's classifiers). -/
def refKey (s : Str) : Str :=
  (s.filter (fun c => c.isAlpha || c.isDigit)).map Char.toLower

/-- Lexicographic order on the keys with a shorter strict prefix first
(`List.Lex` of the character order). -/
def refOrd (x y : Str) : Ordering :=
  if x = y then .eq else if List.Lex (· < ·) x y then .lt else .gt

def refCmp (a b : Str) : Ordering := refOrd (refKey a) (refKey b)

/-- Distinctness hypothesis of claim C10: no two live records compare equal
under the (category, then title) comparator unless they are the same record. -/
def TiesDistinct (l : List Bookmark) : Prop :=
  ∀ a ∈ l, ∀ b ∈ l, recordCmp a b = .eq → a = b

/-! ## Concrete records used by counterexamples and witnesses -/

def opX : Str := ("X").data

def c1b1 : Bookmark := ⟨("t1").data, opX, ("u1").data⟩

def c1b2 : Bookmark := ⟨("t2").data, opX, ("u2").data⟩

def bLong : Bookmark := ⟨List.replicate 36 'a', ("c").data, ("u").data⟩

def bBad : Bookmark := ⟨[segEnd], ("c").data, ("u").data⟩

def bR : Bookmark := ⟨("Rust").data, ("Lang").data, ("https://rust-lang.org").data⟩

def bW : Bookmark := ⟨("Project Github").data, ("Development").data,
  ("https://github.com/vannrr/fmark").data⟩

/-- State with `c1b1` stored, used by several witnesses. -/
def oneState : ParsedFile × PlainText := (ParsedFile.new []).add_bookmark PlainText.new c1b1

/-- One delimiter-wrapped segment as `to_line` emits it. -/
def segChunk (xs : Str) : Str := segStart :: (xs ++ [segEnd])

/-- The non-strict order induced by the record comparator. -/
def leRec (a b : Bookmark) : Prop := recordCmp a b ≠ .gt

instance instDecidableTiesDistinct (l : List Bookmark) : Decidable (TiesDistinct l) :=
  inferInstanceAs (Decidable (∀ a ∈ l, ∀ b ∈ l, recordCmp a b = .eq → a = b))

/-- Concrete index states with the same records in different store order. -/
def c10a : Bookmark := ⟨("ta").data, ("A").data, ("ua").data⟩
def c10b : Bookmark := ⟨("tb").data, ("B").data, ("ub").data⟩
def c10pf1 : ParsedFile := { emptyParsedFile with bookmarks := [(c10a.url, c10a), (c10b.url, c10b)] }
def c10pf2 : ParsedFile := { emptyParsedFile with bookmarks := [(c10b.url, c10b), (c10a.url, c10a)] }

instance instDecCrosses (p q : Nat) : Decidable (crosses01 p q) :=
  inferInstanceAs (Decidable ((p = 0 ∧ q ≠ 0) ∨ (p ≠ 0 ∧ q = 0)))

instance instDecNoCrossing (pf post : ParsedFile) (cats : List Str) :
    Decidable (noCrossing pf post cats) :=
  inferInstanceAs (Decidable (∀ c ∈ cats, ¬ crosses01 (countVal pf c) (countVal post c)))

/-- A record reusing the already-live category of `oneState`. -/
def c8b : Bookmark := ⟨("t3").data, opX, ("u3").data⟩

/-- The records of a list of lines, in file order: what `parsedRecords` yields
once the text has been split into lines. -/
def lineRecs (lines : List Str) : List Bookmark :=
  lines.filterMap (fun line =>
    let t := rustTrim line
    if startsWithSep t then none else Bookmark.from_line t)

/-!
# Theorems
-/

/-! ## Association-list lemmas -/

theorem aget_append_of_none {κ ν : Type} [DecidableEq κ] {k : κ} {l1 l2 : List (κ × ν)}
    (h : aget k l1 = none) : aget k (l1 ++ l2) = aget k l2 := by
  induction l1 with
  | nil => simp
  | cons p t ih =>
      obtain ⟨k2, v⟩ := p
      by_cases hk : k2 = k
      · simp [aget, hk] at h
      · simp [aget, hk] at h ⊢
        exact ih h

theorem aget_append_of_some {κ ν : Type} [DecidableEq κ] {k : κ} {v : ν} {l1 l2 : List (κ × ν)}
    (h : aget k l1 = some v) : aget k (l1 ++ l2) = some v := by
  induction l1 with
  | nil => simp [aget] at h
  | cons p t ih =>
      obtain ⟨k2, w⟩ := p
      by_cases hk : k2 = k
      · simp [aget, hk] at h ⊢; exact h
      · simp [aget, hk] at h ⊢; exact ih h

/-! ## Field-projection lemmas: which state components each helper touches -/

theorem add_category_invalid (pf : ParsedFile) (c : Str) :
    (pf.add_category c).1.invalid_lines = pf.invalid_lines := by
  unfold ParsedFile.add_category
  cases aget c pf.category_count with
  | some count => rfl
  | none =>
      cases h2 : binary_search pf.categories c with
      | error idx => simp only [h2]; rfl
      | ok idx => simp only [h2]

/-! ## Claim C6: which lines end up in the invalid-line table -/

theorem parseLines_invalid_aget (ls : List Str) :
    ∀ (i k : Nat) (pf : ParsedFile),
      (∀ j, i ≤ j → aget j pf.invalid_lines = none) →
      aget k (parseLines i ls pf).invalid_lines =
        if k < i then aget k pf.invalid_lines
        else
          match ls.get? (k - i) with
          | some line =>
              if startsWithSep (rustTrim line) = false ∧ Bookmark.from_line (rustTrim line) = none
              then some line else none
          | none => none := by
  induction ls with
  | nil =>
      intro i k pf hnone
      simp only [parseLines]
      by_cases hk : k < i
      · simp [hk]
      · simp [hk, hnone k (by omega)]
  | cons line rest ih =>
      intro i k pf hnone
      simp only [parseLines]
      by_cases hsep : startsWithSep (rustTrim line) = true
      · rw [if_pos hsep]
        rw [ih (i+1) k pf (fun j hj => hnone j (by omega))]
        by_cases hk : k < i
        · simp [hk, show k < i + 1 by omega]
        · by_cases hk2 : k = i
          · subst hk2
            simp [show k < k + 1 by omega, hnone k (by omega), hsep]
          · have h3 : ¬ (k < i + 1) := by omega
            simp only [if_neg hk, if_neg h3]
            have : k - i = (k - (i+1)) + 1 := by omega
            rw [this]
            simp
      · rw [if_neg hsep]
        cases hfl : Bookmark.from_line (rustTrim line) with
        | some bookmark =>
            have hpres : ({ (((pf.add_titles_char_count bookmark.title).add_category
                  bookmark.category).1) with
                bookmarks := ainsert bookmark.url bookmark
                  (((pf.add_titles_char_count bookmark.title).add_category
                    bookmark.category).1).bookmarks } : ParsedFile).invalid_lines =
                pf.invalid_lines := by
              simpa using add_category_invalid (pf.add_titles_char_count bookmark.title)
                bookmark.category
            rw [ih (i+1) k _ (fun j hj => by rw [hpres]; exact hnone j (by omega))]
            rw [hpres]
            by_cases hk : k < i
            · simp [hk, show k < i + 1 by omega]
            · by_cases hk2 : k = i
              · subst hk2
                simp [show k < k + 1 by omega, hnone k (by omega), hfl]
              · have h3 : ¬ (k < i + 1) := by omega
                simp only [if_neg hk, if_neg h3]
                have : k - i = (k - (i+1)) + 1 := by omega
                rw [this]
                simp
        | none =>
            have hax : ∀ j, i + 1 ≤ j →
                aget j (pf.invalid_lines ++ [(i, line)]) = none := by
              intro j hj
              rw [aget_append_of_none (hnone j (by omega))]
              simp [aget, show i ≠ j by omega]
            rw [ih (i+1) k _ hax]
            by_cases hk : k < i
            · rw [if_pos (show k < i + 1 by omega), if_pos hk]
              cases hg : aget k pf.invalid_lines with
              | some v => rw [aget_append_of_some hg]
              | none =>
                  rw [aget_append_of_none hg]
                  simp [aget, show i ≠ k by omega]
            · by_cases hk2 : k = i
              · subst hk2
                rw [if_pos (show k < k + 1 by omega), if_neg (show ¬ k < k by omega)]
                rw [aget_append_of_none (hnone k (by omega))]
                simp [aget, hsep, hfl]
              · have h3 : ¬ (k < i + 1) := by omega
                simp only [if_neg hk, if_neg h3]
                have : k - i = (k - (i+1)) + 1 := by omega
                rw [this]
                simp

/-- C6 (amended): during parse, a line whose trimmed form starts with the
separator symbol `-` is dropped entirely (it never enters the invalid-line
table), while every other line that fails to decode as a record — including
blank and pure-whitespace lines — is preserved verbatim (untrimmed) under its
original line number among all lines of the file; lines that decode are not
in the table. -/
theorem parse_invalid_lines_spec (text : Str) (k : Nat) :
    aget k (ParsedFile.new text).invalid_lines =
      match (rustLines text).get? k with
      | some line =>
          if startsWithSep (rustTrim line) = false ∧ Bookmark.from_line (rustTrim line) = none
          then some line else none
      | none => none := by
  have h := parseLines_invalid_aget (rustLines text) 0 k emptyParsedFile (fun j _ => rfl)
  rw [show (ParsedFile.new text).invalid_lines =
      (parseLines 0 (rustLines text) emptyParsedFile).invalid_lines from rfl]
  simpa using h

/-- C1: the category list does not stay in sync with the live records: after
`add {cat X}`, `remove`, `add {cat X}` on a freshly parsed (empty) index, a
record with category `X` is live and its reference count is 1, yet
`categories()` is empty — the leftover zero-count entry made the second
`add_category` skip re-inserting the name, so "present iff refcount ≥ 1"
fails. -/
theorem categories_ghost_zero_bug :
    (let s1 := (ParsedFile.new []).add_bookmark PlainText.new c1b1
     let s2 := s1.1.remove_bookmark s1.2 c1b1.url
     let s3 := s2.1.add_bookmark s2.2 c1b2
     aget c1b2.url s3.1.bookmarks = some c1b2 ∧ c1b2.category = opX ∧
       countVal s3.1 opX = 1 ∧ s3.1.categories = []) := by decide

/-- C2 (counterexample): adding a single record whose title has 36 characters
(one above the histogram's ceiling) and then removing it leaves
`longest_title = 36` although no record is live, so `longest_title` is not the
maximum title width (which would be 0). -/
theorem longest_title_stale_after_overlong_removal :
    (let s1 := (ParsedFile.new []).add_bookmark PlainText.new bLong
     let s2 := s1.1.remove_bookmark s1.2 bLong.url
     s2.1.bookmarks = [] ∧ s2.1.longest_title = 36 ∧
       s2.1.longest_title ≠ maxL (liveTitleLens s2.1)) := by decide

/-- C3 (counterexample): a record whose title is the single character `}`
needs no truncation, and the pad widths 1/1 are this one-record set's own
field-width maxima, yet decode of encode loses the title (the `}` closes the
title segment early), so the round-trip fails. -/
theorem roundtrip_fails_on_delimiter :
    Bookmark.from_line (bBad.to_line 1 1) = some ⟨[], ("c").data, ("u").data⟩ ∧
      Bookmark.from_line (bBad.to_line 1 1) ≠ some bBad := by decide

/-- C4: an unparseable line preceded by a separator line is stored verbatim
under its original line number (1), but the very next regeneration of the
bookmarks text omits it entirely: the render loop runs over
`0..(live + invalid)` slots, and a stored line number at or beyond that bound
is never revisited (here `combined_len = 1`, the key is 1). -/
theorem invalid_line_dropped_from_render :
    (let pf := ParsedFile.new (("--\nnot a bookmark").data)
     pf.invalid_lines = [(1, ("not a bookmark").data)] ∧
       (PlainText.new.update_bookmarks pf).bookmarks = ADD_BOOKMARK ++ ['\n'] ∧
       ∀ l ∈ rustLines (PlainText.new.update_bookmarks pf).bookmarks,
         l ≠ ("not a bookmark").data) := by decide

/-- C5: modifying a stored record with `new = old` is a complete no-op: the
guard at the top of `modify_bookmark` returns before touching either the index
or the cache state, so no version advances and `edited` is untouched. -/
theorem modify_bookmark_self_noop (pf : ParsedFile) (pt : PlainText) (r : Bookmark)
    (h : aget r.url pf.bookmarks = some r) :
    pf.modify_bookmark pt r r = (pf, pt) := by
  unfold ParsedFile.modify_bookmark
  simp

theorem modify_bookmark_self_noop_witness :
    aget c1b1.url oneState.1.bookmarks = some c1b1 ∧
      oneState.1.modify_bookmark oneState.2 c1b1 c1b1 = (oneState.1, oneState.2) :=
  ⟨by decide, modify_bookmark_self_noop oneState.1 oneState.2 c1b1 (by decide)⟩

/-- C6 (counterexample): a pure-whitespace line is NOT dropped — it is kept in
the invalid-line table (it does not start with the separator symbol once
trimmed, and it fails to decode); while the non-blank, non-separator-repeat
line `-hello` IS dropped (any trimmed line starting with `-` is skipped). -/
theorem whitespace_line_preserved_not_dropped :
    (ParsedFile.new (("  ").data)).invalid_lines = [(0, ("  ").data)] ∧
      (ParsedFile.new (("-hello").data)).invalid_lines = [] := by decide

/-- C7 (counterexample): after inserting the Rust bookmark, removing it by URL
and re-rendering, the bookmarks text is not empty — the renderer always emits
the `-| Add Bookmark |-` banner line first. -/
theorem render_after_remove_not_empty :
    (let s1 := (ParsedFile.new []).add_bookmark PlainText.new bR
     let pt2 := s1.2.update_bookmarks s1.1
     let s3 := s1.1.remove_bookmark pt2 bR.url
     let pt4 := s3.2.update_bookmarks s3.1
     pt4.bookmarks ≠ []) := by decide

/-- C7 (amended): inserting `{Rust, Lang, https://rust-lang.org}` into an
empty index and rendering yields a text exactly one of whose lines decodes
back to that triple; after removing it by URL, re-rendering yields exactly the
`-| Add Bookmark |-` banner line and nothing else (in particular no record
lines and no category-separator lines). -/
theorem insert_render_remove_render :
    (let s1 := (ParsedFile.new []).add_bookmark PlainText.new bR
     let pt2 := s1.2.update_bookmarks s1.1
     let s3 := s1.1.remove_bookmark pt2 bR.url
     let pt4 := s3.2.update_bookmarks s3.1
     (rustLines pt2.bookmarks).countP (fun l => decide (Bookmark.from_line l = some bR)) = 1 ∧
       pt4.bookmarks = ADD_BOOKMARK ++ ['\n']) := by decide

/-! ## Claim C3: the codec round-trip -/

theorem scanStep_open (segs : List Str) (seg : Str) :
    scanStep ⟨segs, seg, false⟩ segStart = ⟨segs, [segStart], true⟩ := by
  simp [scanStep, segStart, segEnd]

theorem scanStep_push (segs : List Str) (seg : Str) (c : Char) (h1 : c ≠ '\n') (h2 : c ≠ segEnd) :
    scanStep ⟨segs, seg, true⟩ c = ⟨segs, seg ++ [c], true⟩ := by
  simp [scanStep, h1, h2]

theorem scanStep_close (segs : List Str) (seg : Str) :
    scanStep ⟨segs, seg, true⟩ segEnd = ⟨segs ++ [seg ++ [segEnd]], seg ++ [segEnd], false⟩ := by
  simp [scanStep, segStart, segEnd]

theorem scanStep_idle (segs : List Str) (seg : Str) (c : Char) (h : c ≠ segStart) :
    scanStep ⟨segs, seg, false⟩ c = ⟨segs, seg, false⟩ := by
  simp [scanStep, h]

theorem foldl_scan_push (cs : Str) : ∀ (segs : List Str) (seg : Str),
    (∀ c ∈ cs, c ≠ segEnd ∧ c ≠ '\n') →
    List.foldl scanStep ⟨segs, seg, true⟩ cs = ⟨segs, seg ++ cs, true⟩ := by
  induction cs with
  | nil => intro segs seg _; simp
  | cons c rest ih =>
      intro segs seg h
      have hc := h c (by simp)
      rw [List.foldl_cons, scanStep_push segs seg c hc.2 hc.1]
      rw [ih segs (seg ++ [c]) (fun d hd => h d (by simp [hd]))]
      simp

theorem foldl_scan_idle (cs : Str) : ∀ (segs : List Str) (seg : Str),
    (∀ c ∈ cs, c ≠ segStart) →
    List.foldl scanStep ⟨segs, seg, false⟩ cs = ⟨segs, seg, false⟩ := by
  induction cs with
  | nil => intro segs seg _; simp
  | cons c rest ih =>
      intro segs seg h
      rw [List.foldl_cons, scanStep_idle segs seg c (h c (by simp))]
      exact ih segs seg (fun d hd => h d (by simp [hd]))

theorem scan_chunk (segs : List Str) (seg : Str) (xs : Str)
    (h : ∀ c ∈ xs, c ≠ segStart ∧ c ≠ segEnd ∧ c ≠ '\n') :
    List.foldl scanStep ⟨segs, seg, false⟩ (segChunk xs) =
      ⟨segs ++ [segChunk xs], segChunk xs, false⟩ := by
  unfold segChunk
  rw [List.foldl_cons, scanStep_open]
  rw [List.foldl_append]
  rw [foldl_scan_push xs segs [segStart] (fun c hc => ⟨(h c hc).2.1, (h c hc).2.2⟩)]
  rw [show List.foldl scanStep ⟨segs, [segStart] ++ xs, true⟩ [segEnd] =
      scanStep ⟨segs, [segStart] ++ xs, true⟩ segEnd from rfl]
  rw [scanStep_close]
  simp

theorem dropWhile_all_false {p : Char → Bool} (l : Str) (h : ∀ c ∈ l, p c = false) :
    List.dropWhile p l = l := by
  cases l with
  | nil => rfl
  | cons y ys =>
      rw [List.dropWhile_cons]
      simp [h y (by simp)]

theorem trimBraces_chunk (xs : Str) (h : ∀ c ∈ xs, isBrace c = false) :
    trimBraces (segChunk xs) = xs := by
  cases xs with
  | nil => decide
  | cons y ys =>
      have h1 : List.dropWhile isBrace (segChunk (y :: ys)) = y :: (ys ++ [segEnd]) := by
        unfold segChunk
        rw [List.dropWhile_cons]
        simp only [show isBrace segStart = true from by decide, if_true, List.cons_append]
        rw [List.dropWhile_cons]
        simp [h y (by simp)]
      unfold trimBraces
      rw [h1]
      rw [show (y :: (ys ++ [segEnd])).reverse = segEnd :: ((y :: ys).reverse) by simp]
      rw [List.dropWhile_cons]
      simp only [show isBrace segEnd = true from by decide, if_true]
      rw [dropWhile_all_false (y :: ys).reverse (fun c hc => h c (by simp at hc; rcases hc with h1 | h1 <;> simp [h1]))]
      simp

theorem to_line_eq_chunks (b : Bookmark) (wt wc : Nat)
    (ht : b.title.length ≤ TITLE_MAX_LENGTH)
    (hc : b.category.length ≤ CATEGORY_MAX_LENGTH)
    (hu : utf8Len b.url ≤ URL_MAX_LENGTH) :
    ∃ n1 n2, b.to_line wt wc =
      segChunk [TITLE_MARKER] ++ (segChunk b.title ++ (spaces n1 ++ (segChunk [CATEGORY_MARKER] ++
        (segChunk b.category ++ (spaces n2 ++ (segChunk [URL_MARKER] ++
          (segChunk b.url ++ ['\n']))))))) := by
  refine ⟨if TITLE_MAX_LENGTH - 1 ≤ wt then TITLE_MAX_LENGTH - b.title.length + 1
            else wt - b.title.length + 1,
          if CATEGORY_MAX_LENGTH - 1 ≤ wc then CATEGORY_MAX_LENGTH - b.category.length + 1
            else wc - b.category.length + 1, ?_⟩
  have hT : ¬ TITLE_MAX_LENGTH < b.title.length := by omega
  have hC : ¬ CATEGORY_MAX_LENGTH < b.category.length := by omega
  have hU : ¬ URL_MAX_LENGTH < utf8Len b.url := by omega
  simp only [Bookmark.to_line]
  rw [if_neg hT, if_neg hC, if_neg hU]
  unfold segChunk
  simp [List.append_assoc]

theorem spaces_no_seg (n : Nat) : ∀ c ∈ spaces n, c ≠ segStart := by
  intro c hc
  unfold spaces at hc
  rw [List.eq_of_mem_replicate hc]
  decide

theorem isBrace_false_of_ne {c : Char} (h1 : c ≠ segStart) (h2 : c ≠ segEnd) :
    isBrace c = false := by
  unfold isBrace
  simp [h1, h2]

/-- C3 (amended): for every bookmark whose fields need no truncation, contain
neither delimiter braces nor a newline, and are trim-stable, decoding the
encoded line restores the record exactly, for any title/category pad widths
(in particular widths derived from a record set's own maxima). -/
theorem to_line_from_line_roundtrip (b : Bookmark) (wt wc : Nat)
    (ht1 : b.title.length ≤ TITLE_MAX_LENGTH)
    (hc1 : b.category.length ≤ CATEGORY_MAX_LENGTH)
    (hu1 : utf8Len b.url ≤ URL_MAX_LENGTH)
    (ht2 : ∀ c ∈ b.title, c ≠ segStart ∧ c ≠ segEnd ∧ c ≠ '\n')
    (hc2 : ∀ c ∈ b.category, c ≠ segStart ∧ c ≠ segEnd ∧ c ≠ '\n')
    (hu2 : ∀ c ∈ b.url, c ≠ segStart ∧ c ≠ segEnd ∧ c ≠ '\n')
    (ht3 : rustTrim b.title = b.title)
    (hc3 : rustTrim b.category = b.category)
    (hu3 : rustTrim b.url = b.url) :
    Bookmark.from_line (b.to_line wt wc) = some b := by
  obtain ⟨n1, n2, hline⟩ := to_line_eq_chunks b wt wc ht1 hc1 hu1
  rw [hline]
  unfold Bookmark.from_line
  rw [List.foldl_append, scan_chunk _ _ [TITLE_MARKER] (by decide)]
  rw [List.foldl_append, scan_chunk _ _ b.title ht2]
  rw [List.foldl_append, foldl_scan_idle (spaces n1) _ _ (spaces_no_seg n1)]
  rw [List.foldl_append, scan_chunk _ _ [CATEGORY_MARKER] (by decide)]
  rw [List.foldl_append, scan_chunk _ _ b.category hc2]
  rw [List.foldl_append, foldl_scan_idle (spaces n2) _ _ (spaces_no_seg n2)]
  rw [List.foldl_append, scan_chunk _ _ [URL_MARKER] (by decide)]
  rw [List.foldl_append, scan_chunk _ _ b.url hu2]
  rw [show ∀ st : ScanState, List.foldl scanStep st ['\n'] = scanStep st '\n' from fun st => rfl]
  rw [scanStep_idle _ _ '\n' (by decide)]
  simp only [List.nil_append, List.append_assoc, List.singleton_append, List.cons_append]
  have hbt : trimBraces (segChunk b.title) = b.title :=
    trimBraces_chunk _ (fun c hc => isBrace_false_of_ne (ht2 c hc).1 (ht2 c hc).2.1)
  have hbc : trimBraces (segChunk b.category) = b.category :=
    trimBraces_chunk _ (fun c hc => isBrace_false_of_ne (hc2 c hc).1 (hc2 c hc).2.1)
  have hbu : trimBraces (segChunk b.url) = b.url :=
    trimBraces_chunk _ (fun c hc => isBrace_false_of_ne (hu2 c hc).1 (hu2 c hc).2.1)
  have hmT : rustTrim (trimBraces (segChunk [TITLE_MARKER])) = [TITLE_MARKER] := by decide
  have hmC : rustTrim (trimBraces (segChunk [CATEGORY_MARKER])) = [CATEGORY_MARKER] := by decide
  have hmU : rustTrim (trimBraces (segChunk [URL_MARKER])) = [URL_MARKER] := by decide
  simp only [extractLoop, hmT, hmC, hmU, hbt, hbc, hbu, ht3, hc3, hu3]
  norm_num [show ([CATEGORY_MARKER] : Str) ≠ [TITLE_MARKER] from by decide,
    show ([URL_MARKER] : Str) ≠ [TITLE_MARKER] from by decide,
    show ([URL_MARKER] : Str) ≠ [CATEGORY_MARKER] from by decide]


/-- Witness for the round-trip theorem at a concrete record and widths. -/
theorem to_line_from_line_roundtrip_witness :
    (bW.title.length ≤ TITLE_MAX_LENGTH ∧ utf8Len bW.url ≤ URL_MAX_LENGTH ∧
      rustTrim bW.title = bW.title ∧
      (∀ c ∈ bW.title, c ≠ segStart ∧ c ≠ segEnd ∧ c ≠ '\n')) ∧
    Bookmark.from_line (bW.to_line 20 15) = some bW :=
  ⟨⟨by decide, by decide, by decide, by decide⟩,
   to_line_from_line_roundtrip bW 20 15 (by decide) (by decide) (by decide) (by decide)
     (by decide) (by decide) (by decide) (by decide) (by decide)⟩

/-! ## Claim C9: the comparator against its reference ordering -/

theorem char_lt_iff_toNat (a b : Char) : a < b ↔ a.toNat < b.toNat := by
  rw [Char.lt_def, UInt32.lt_def]
  exact Iff.rfl

instance instIsIrreflCharLt : IsIrrefl Char (· < ·) :=
  ⟨fun a h => absurd ((char_lt_iff_toNat a a).mp h) (Nat.lt_irrefl _)⟩

theorem cmpCharByVal_eq_iff (a b : Char) : cmpCharByVal a b = .eq ↔ a = b := by
  rcases Nat.lt_trichotomy a.toNat b.toNat with h | h | h
  · simp only [cmpCharByVal, if_pos h]
    constructor
    · intro hc; exact absurd hc (by decide)
    · intro hab; subst hab; exact absurd h (Nat.lt_irrefl _)
  · have h1 : ¬ a.toNat < b.toNat := by omega
    have h2 : ¬ b.toNat < a.toNat := by omega
    simp only [cmpCharByVal]
    rw [if_neg h1, if_neg h2]
    simp [Char.ext (UInt32.toNat.inj h)]
  · have h1 : ¬ a.toNat < b.toNat := by omega
    simp only [cmpCharByVal]
    rw [if_neg h1, if_pos h]
    constructor
    · intro hc; exact absurd hc (by decide)
    · intro hab; subst hab; exact absurd h (Nat.lt_irrefl _)

theorem strCmp_eq_iff (x : Str) : ∀ y : Str, strCmp x y = .eq ↔ x = y := by
  induction x with
  | nil =>
      intro y
      cases y with
      | nil => simp [strCmp]
      | cons b u => simp [strCmp]
  | cons a t ih =>
      intro y
      cases y with
      | nil => simp [strCmp]
      | cons b u =>
          simp only [strCmp]
          cases hc : cmpCharByVal a b with
          | lt =>
              simp only []
              constructor
              · intro h; exact absurd h (by decide)
              · rintro ⟨rfl, rfl⟩
                rw [(cmpCharByVal_eq_iff a a).mpr rfl] at hc
                exact absurd hc (by decide)
          | gt =>
              simp only []
              constructor
              · intro h; exact absurd h (by decide)
              · rintro ⟨rfl, rfl⟩
                rw [(cmpCharByVal_eq_iff a a).mpr rfl] at hc
                exact absurd hc (by decide)
          | eq =>
              have hab : a = b := (cmpCharByVal_eq_iff a b).mp hc
              subst hab
              simp only [List.cons.injEq, true_and]
              exact ih u

theorem strCmp_lt_iff (x : Str) : ∀ y : Str, strCmp x y = .lt ↔ List.Lex (· < ·) x y := by
  induction x with
  | nil =>
      intro y
      cases y with
      | nil =>
          simp only [strCmp]
          constructor
          · intro h; exact absurd h (by decide)
          · intro h; cases h
      | cons b u =>
          constructor
          · intro _; exact List.Lex.nil
          · intro _; rfl
  | cons a t ih =>
      intro y
      cases y with
      | nil =>
          simp only [strCmp]
          constructor
          · intro h; exact absurd h (by decide)
          · intro h; exact absurd h (List.Lex.not_nil_right _ _)
      | cons b u =>
          simp only [strCmp]
          cases hc : cmpCharByVal a b with
          | lt =>
              have hab : a < b := by
                rw [char_lt_iff_toNat]
                by_contra hn
                simp only [cmpCharByVal] at hc
                rw [if_neg hn] at hc
                split at hc <;> exact absurd hc (by decide)
              exact iff_of_true rfl (List.Lex.rel hab)
          | eq =>
              have hab : a = b := (cmpCharByVal_eq_iff a b).mp hc
              subst hab
              simp only []
              rw [List.Lex.cons_iff]
              exact ih u
          | gt =>
              have hba : b.toNat < a.toNat := by
                simp only [cmpCharByVal] at hc
                split at hc
                · exact absurd hc (by decide)
                · split at hc
                  · omega
                  · exact absurd hc (by decide)
              simp only []
              constructor
              · intro h; exact absurd h (by decide)
              · intro h
                cases h with
                | rel hr => rw [char_lt_iff_toNat] at hr; omega
                | cons hl => omega
  
theorem strCmp_eq_refOrd (x y : Str) : strCmp x y = refOrd x y := by
  unfold refOrd
  by_cases he : x = y
  · rw [if_pos he]; exact (strCmp_eq_iff x y).mpr he
  · rw [if_neg he]
    by_cases hl : List.Lex (· < ·) x y
    · rw [if_pos hl]; exact (strCmp_lt_iff x y).mpr hl
    · rw [if_neg hl]
      cases hcc : strCmp x y with
      | lt => exact absurd ((strCmp_lt_iff x y).mp hcc) hl
      | eq => exact absurd ((strCmp_eq_iff x y).mp hcc) he
      | gt => rfl

theorem char_filter_pred_eq (c : Char) :
    (c.isAlpha || c.isDigit) = (rustIsAsciiAlphabetic c || rustIsAsciiDigit c) := by
  simp only [Char.isAlpha, Char.isUpper, Char.isLower, Char.isDigit,
    rustIsAsciiAlphabetic, rustIsAsciiDigit]
  simp [Char.le_def, UInt32.le_def]

theorem char_toLower_eq (c : Char) : Char.toLower c = rustToLowercaseChar c := by
  simp only [Char.toLower, rustToLowercaseChar]
  by_cases h : 65 ≤ c.toNat ∧ c.toNat ≤ 90
  · rw [if_pos h, if_pos]
    show ('A' ≤ c && c ≤ 'Z') = true
    simp only [Bool.and_eq_true, decide_eq_true_eq]
    exact ⟨by rw [Char.le_def, UInt32.le_def]; exact h.1, by rw [Char.le_def, UInt32.le_def]; exact h.2⟩
  · rw [if_neg h, if_neg]
    intro hc
    simp only [Bool.and_eq_true, decide_eq_true_eq] at hc
    apply h
    refine ⟨?_, ?_⟩
    · have := hc.1; rw [Char.le_def, UInt32.le_def] at this; exact this
    · have := hc.2; rw [Char.le_def, UInt32.le_def] at this; exact this

theorem refKey_eq_sortKey (s : Str) : refKey s = sortKey s := by
  unfold refKey sortKey
  rw [show (fun c : Char => c.isAlpha || c.isDigit) =
      (fun c => rustIsAsciiAlphabetic c || rustIsAsciiDigit c) from funext char_filter_pred_eq]
  rw [show Char.toLower = rustToLowercaseChar from funext char_toLower_eq]

/-- C9: `alphabetic_sort` equals the reference ordering that filters each
string to ASCII letters and digits, lowercases, and compares the keys
lexicographically with a shorter strict prefix first; and the claim's concrete
comparisons and the sorted order of `["b-2","A1","a-10"]` come out as stated. -/
theorem alphabetic_sort_spec :
    (∀ a b : Str, PlainText.alphabetic_sort a b = refCmp a b) ∧
    PlainText.alphabetic_sort (("A-1").data) (("a1").data) = .eq ∧
    PlainText.alphabetic_sort (("1").data) (("a").data) = .lt ∧
    PlainText.alphabetic_sort (("a-1").data) (("a-10").data) = .lt ∧
    sortByCmp PlainText.alphabetic_sort [("b-2").data, ("A1").data, ("a-10").data] =
      [("A1").data, ("a-10").data, ("b-2").data] := by
  refine ⟨?_, by decide, by decide, by decide, by decide⟩
  intro a b
  unfold PlainText.alphabetic_sort refCmp
  rw [refKey_eq_sortKey, refKey_eq_sortKey, ← strCmp_eq_refOrd]

/-! ## Claim C10: renderer independence from store iteration order -/

theorem cmpCharByVal_lt_iff (a b : Char) : cmpCharByVal a b = .lt ↔ a.toNat < b.toNat := by
  unfold cmpCharByVal
  rcases Nat.lt_trichotomy a.toNat b.toNat with h | h | h
  · simp [if_pos h, h]
  · have h1 : ¬ a.toNat < b.toNat := by omega
    have h2 : ¬ b.toNat < a.toNat := by omega
    rw [if_neg h1, if_neg h2]
    constructor
    · intro hx; exact absurd hx (by decide)
    · intro hx; omega
  · have h1 : ¬ a.toNat < b.toNat := by omega
    rw [if_neg h1, if_pos h]
    constructor
    · intro hx; exact absurd hx (by decide)
    · intro hx; omega

theorem cmpCharByVal_gt_iff (a b : Char) : cmpCharByVal a b = .gt ↔ b.toNat < a.toNat := by
  unfold cmpCharByVal
  rcases Nat.lt_trichotomy a.toNat b.toNat with h | h | h
  · rw [if_pos h]
    constructor
    · intro hx; exact absurd hx (by decide)
    · intro hx; omega
  · have h1 : ¬ a.toNat < b.toNat := by omega
    have h2 : ¬ b.toNat < a.toNat := by omega
    rw [if_neg h1, if_neg h2]
    constructor
    · intro hx; exact absurd hx (by decide)
    · intro hx; omega
  · have h1 : ¬ a.toNat < b.toNat := by omega
    rw [if_neg h1, if_pos h]
    simp [h]

theorem cmpCharByVal_swap (a b : Char) : (cmpCharByVal a b).swap = cmpCharByVal b a := by
  unfold cmpCharByVal
  rcases Nat.lt_trichotomy a.toNat b.toNat with h | h | h
  · have h2 : ¬ b.toNat < a.toNat := by omega
    rw [if_pos h, if_neg h2, if_pos h]
    rfl
  · have h1 : ¬ a.toNat < b.toNat := by omega
    have h2 : ¬ b.toNat < a.toNat := by omega
    rw [if_neg h1, if_neg h2, if_neg h2, if_neg h1]
    rfl
  · have h1 : ¬ a.toNat < b.toNat := by omega
    rw [if_neg h1, if_pos h, if_pos h]
    rfl

theorem cmpCharByVal_swap_eq {a b : Char} {o : Ordering} (h : cmpCharByVal a b = o) :
    cmpCharByVal b a = o.swap := by
  rw [← cmpCharByVal_swap a b, h]

theorem strCmp_swap (x : Str) : ∀ y : Str, (strCmp x y).swap = strCmp y x := by
  induction x with
  | nil =>
      intro y
      cases y with
      | nil => rfl
      | cons b u => rfl
  | cons a t ih =>
      intro y
      cases y with
      | nil => rfl
      | cons b u =>
          cases hab : cmpCharByVal a b with
          | lt => simp [strCmp, hab, cmpCharByVal_swap_eq hab]; rfl
          | gt => simp [strCmp, hab, cmpCharByVal_swap_eq hab]; rfl
          | eq => simp [strCmp, hab, cmpCharByVal_swap_eq hab]; exact ih u

theorem strCmp_nil_left (z : Str) : strCmp [] z ≠ .gt := by
  cases z with
  | nil => decide
  | cons c v => simp [strCmp]

theorem strCmp_le_trans (x : Str) : ∀ y z : Str,
    strCmp x y ≠ .gt → strCmp y z ≠ .gt → strCmp x z ≠ .gt := by
  induction x with
  | nil => intro y z _ _; exact strCmp_nil_left z
  | cons a t ih =>
      intro y z h1 h2
      cases y with
      | nil => exact absurd rfl h1
      | cons b u =>
          cases z with
          | nil => exact absurd rfl h2
          | cons c v =>
              cases hab : cmpCharByVal a b with
              | gt => simp [strCmp, hab] at h1
              | lt =>
                  have hab2 := (cmpCharByVal_lt_iff a b).mp hab
                  cases hbc : cmpCharByVal b c with
                  | gt => simp [strCmp, hbc] at h2
                  | lt =>
                      have hbc2 := (cmpCharByVal_lt_iff b c).mp hbc
                      simp [strCmp, (cmpCharByVal_lt_iff a c).mpr (by omega : a.toNat < c.toNat)]
                  | eq =>
                      have hbc2 : b = c := (cmpCharByVal_eq_iff b c).mp hbc
                      subst hbc2
                      simp [strCmp, hab]
              | eq =>
                  have hab2 : a = b := (cmpCharByVal_eq_iff a b).mp hab
                  subst hab2
                  simp only [strCmp, hab] at h1
                  cases hbc : cmpCharByVal a c with
                  | gt => simp [strCmp, hbc] at h2
                  | lt => simp [strCmp, hbc]
                  | eq =>
                      simp only [strCmp, hbc] at h2
                      simp only [strCmp, hbc]
                      exact ih u v h1 h2

theorem ordering_swap_eq_iff (o : Ordering) : o.swap = .eq ↔ o = .eq := by
  cases o <;> simp [Ordering.swap]

theorem alphabetic_sort_swap (x y : Str) :
    (PlainText.alphabetic_sort x y).swap = PlainText.alphabetic_sort y x := strCmp_swap _ _

theorem alphabetic_sort_eq_iff (x y : Str) :
    PlainText.alphabetic_sort x y = .eq ↔ sortKey x = sortKey y := strCmp_eq_iff _ _

theorem alphabetic_sort_le_trans (x y z : Str) :
    PlainText.alphabetic_sort x y ≠ .gt → PlainText.alphabetic_sort y z ≠ .gt →
    PlainText.alphabetic_sort x z ≠ .gt := strCmp_le_trans _ _ _

theorem alphabetic_sort_congr_left {x y : Str} (h : sortKey x = sortKey y) (z : Str) :
    PlainText.alphabetic_sort x z = PlainText.alphabetic_sort y z := by
  unfold PlainText.alphabetic_sort
  rw [h]

theorem alphabetic_sort_congr_right {x y : Str} (h : sortKey x = sortKey y) (z : Str) :
    PlainText.alphabetic_sort z x = PlainText.alphabetic_sort z y := by
  unfold PlainText.alphabetic_sort
  rw [h]

theorem recordCmp_swap (a b : Bookmark) : (recordCmp a b).swap = recordCmp b a := by
  unfold recordCmp
  by_cases h : PlainText.alphabetic_sort a.category b.category = .eq
  · have h2 : PlainText.alphabetic_sort b.category a.category = .eq := by
      rw [← alphabetic_sort_swap, h]
      rfl
    rw [if_pos h, if_pos h2]
    exact alphabetic_sort_swap _ _
  · have h2 : PlainText.alphabetic_sort b.category a.category ≠ .eq := by
      rw [← alphabetic_sort_swap]
      intro hc
      exact h ((ordering_swap_eq_iff _).mp hc)
    rw [if_neg h, if_neg h2]
    exact alphabetic_sort_swap _ _

theorem ordering_ne_gt_ne_eq (o : Ordering) (h1 : o ≠ .gt) (h2 : o ≠ .eq) : o = .lt := by
  cases o
  · rfl
  · exact absurd rfl h2
  · exact absurd rfl h1

theorem recordCmp_le_trans (a b c : Bookmark) :
    recordCmp a b ≠ .gt → recordCmp b c ≠ .gt → recordCmp a c ≠ .gt := by
  intro h1 h2
  unfold recordCmp at h1 h2 ⊢
  by_cases hab : PlainText.alphabetic_sort a.category b.category = .eq
  · have hk : sortKey a.category = sortKey b.category := (alphabetic_sort_eq_iff _ _).mp hab
    by_cases hbc : PlainText.alphabetic_sort b.category c.category = .eq
    · have hk2 : sortKey b.category = sortKey c.category := (alphabetic_sort_eq_iff _ _).mp hbc
      rw [if_pos hab] at h1
      rw [if_pos hbc] at h2
      have hac : PlainText.alphabetic_sort a.category c.category = .eq :=
        (alphabetic_sort_eq_iff _ _).mpr (hk.trans hk2)
      rw [if_pos hac]
      exact alphabetic_sort_le_trans _ _ _ h1 h2
    · rw [if_neg hbc] at h2
      have hcongr := alphabetic_sort_congr_left hk c.category
      have hac : PlainText.alphabetic_sort a.category c.category ≠ .eq := by
        rw [hcongr]; exact hbc
      rw [if_neg hac, hcongr]
      exact h2
  · rw [if_neg hab] at h1
    by_cases hbc : PlainText.alphabetic_sort b.category c.category = .eq
    · have hk2 : sortKey b.category = sortKey c.category := (alphabetic_sort_eq_iff _ _).mp hbc
      have hcongr := alphabetic_sort_congr_right hk2 a.category
      have hac : PlainText.alphabetic_sort a.category c.category ≠ .eq := by
        rw [← hcongr]; exact hab
      rw [if_neg hac, ← hcongr]
      exact h1
    · rw [if_neg hbc] at h2
      have hab2 : PlainText.alphabetic_sort a.category b.category = .lt :=
        ordering_ne_gt_ne_eq _ h1 hab
      have hbc2 : PlainText.alphabetic_sort b.category c.category = .lt :=
        ordering_ne_gt_ne_eq _ h2 hbc
      have hle : PlainText.alphabetic_sort a.category c.category ≠ .gt :=
        alphabetic_sort_le_trans _ _ _ (by rw [hab2]; decide) (by rw [hbc2]; decide)
      have hac : PlainText.alphabetic_sort a.category c.category ≠ .eq := by
        intro he
        have hk3 : sortKey a.category = sortKey c.category := (alphabetic_sort_eq_iff _ _).mp he
        have := alphabetic_sort_congr_left hk3 b.category
        rw [hab2] at this
        have hswap : PlainText.alphabetic_sort c.category b.category = .lt := this.symm
        have : PlainText.alphabetic_sort b.category c.category = .gt := by
          rw [← alphabetic_sort_swap, hswap]
          rfl
        rw [this] at hbc2
        exact absurd hbc2 (by decide)
      rw [if_neg hac]
      exact hle

theorem leRec_total_of_gt {a b : Bookmark} (h : recordCmp a b = .gt) : leRec b a := by
  unfold leRec
  rw [← recordCmp_swap a b, h]
  decide

theorem insertByCmp_perm {α : Type} (cmp : α → α → Ordering) (x : α) (l : List α) :
    List.Perm (insertByCmp cmp x l) (x :: l) := by
  induction l with
  | nil => rfl
  | cons y t ih =>
      unfold insertByCmp
      by_cases h : cmp x y = .gt
      · rw [if_pos h]
        exact (ih.cons y).trans (List.Perm.swap x y t)
      · rw [if_neg h]

theorem sortByCmp_perm {α : Type} (cmp : α → α → Ordering) (l : List α) :
    List.Perm (sortByCmp cmp l) l := by
  induction l with
  | nil => rfl
  | cons a t ih =>
      show List.Perm (insertByCmp cmp a (sortByCmp cmp t)) (a :: t)
      exact (insertByCmp_perm cmp a (sortByCmp cmp t)).trans (ih.cons a)

theorem mem_insertByCmp {α : Type} {cmp : α → α → Ordering} {x z : α} {l : List α}
    (h : z ∈ insertByCmp cmp x l) : z = x ∨ z ∈ l := by
  have := (insertByCmp_perm cmp x l).mem_iff.mp h
  simpa using this

theorem insertByCmp_pairwise (x : Bookmark) (l : List Bookmark)
    (h : l.Pairwise leRec) : (insertByCmp recordCmp x l).Pairwise leRec := by
  induction l with
  | nil => simp [insertByCmp]
  | cons y t ih =>
      rw [List.pairwise_cons] at h
      unfold insertByCmp
      by_cases hg : recordCmp x y = .gt
      · rw [if_pos hg]
        rw [List.pairwise_cons]
        constructor
        · intro z hz
          rcases mem_insertByCmp hz with rfl | hz2
          · exact leRec_total_of_gt hg
          · exact h.1 z hz2
        · exact ih h.2
      · rw [if_neg hg]
        rw [List.pairwise_cons]
        constructor
        · intro z hz
          rcases List.mem_cons.mp hz with rfl | hz2
          · exact hg
          · exact recordCmp_le_trans x y z hg (h.1 z hz2)
        · rw [List.pairwise_cons]
          exact ⟨h.1, h.2⟩

theorem sortByCmp_pairwise (l : List Bookmark) :
    (sortByCmp recordCmp l).Pairwise leRec := by
  induction l with
  | nil => simp [sortByCmp]
  | cons a t ih => exact insertByCmp_pairwise a (sortByCmp recordCmp t) ih

theorem sorted_perm_eq : ∀ (l1 l2 : List Bookmark), List.Perm l1 l2 →
    l1.Pairwise leRec → l2.Pairwise leRec →
    (∀ a ∈ l1, ∀ b ∈ l1, recordCmp a b = .eq → a = b) → l1 = l2 := by
  intro l1
  induction l1 with
  | nil =>
      intro l2 hp _ _ _
      exact hp.nil_eq
  | cons a t1 ih =>
      intro l2 hp hs1 hs2 hd
      cases l2 with
      | nil => exact absurd (List.Perm.eq_nil hp) (by simp)
      | cons b t2 =>
          by_cases hab : a = b
          · subst hab
            have hp2 : List.Perm t1 t2 := hp.cons_inv
            have := ih t2 hp2 (List.pairwise_cons.mp hs1).2 (List.pairwise_cons.mp hs2).2
              (fun x hx y hy he => hd x (by simp [hx]) y (by simp [hy]) he)
            rw [this]
          · have ha2 : a ∈ t2 := by
              have hmem : a ∈ b :: t2 := hp.mem_iff.mp (by simp)
              rcases List.mem_cons.mp hmem with h | h
              · exact absurd h hab
              · exact h
            have hb1 : b ∈ t1 := by
              have hmem : b ∈ a :: t1 := hp.symm.mem_iff.mp (by simp)
              rcases List.mem_cons.mp hmem with h | h
              · exact absurd h.symm hab
              · exact h
            have hba : leRec b a := (List.pairwise_cons.mp hs2).1 a ha2
            have hab2 : leRec a b := (List.pairwise_cons.mp hs1).1 b hb1
            have heq : recordCmp a b = .eq := by
              have h2 : recordCmp a b ≠ .lt := by
                intro hlt
                have hgt : recordCmp b a = .gt := by
                  rw [← recordCmp_swap a b, hlt]
                  rfl
                exact hba hgt
              cases hcc : recordCmp a b
              · exact absurd hcc h2
              · rfl
              · exact absurd hcc hab2
            exact absurd (hd a (by simp) b (by simp [hb1]) heq) hab

/-- C10: for two index states with permutation-equal bookmark stores, equal
invalid-line tables and equal cached field maxima, and no two distinct live
records comparing equal under the (category, then title) comparator, the
renderer produces identical text: the output does not depend on the hash
map's iteration order. -/
theorem update_bookmarks_order_independent (pf1 pf2 : ParsedFile) (pt : PlainText)
    (hperm : List.Perm pf1.bookmarks pf2.bookmarks)
    (hinv : pf1.invalid_lines = pf2.invalid_lines)
    (hlt : pf1.longest_title = pf2.longest_title)
    (hlc : pf1.longest_category = pf2.longest_category)
    (hd : TiesDistinct (pf1.bookmarks.map Prod.snd)) :
    pt.update_bookmarks pf1 = pt.update_bookmarks pf2 := by
  unfold PlainText.update_bookmarks
  by_cases hcache : pt.previous_bookmarks_version = pt.current_bookmarks_version ∧
      pt.bookmarks_initialized = true
  · rw [if_pos hcache, if_pos hcache]
  · rw [if_neg hcache, if_neg hcache]
    have hvperm : List.Perm (pf1.bookmarks.map Prod.snd) (pf2.bookmarks.map Prod.snd) :=
      hperm.map _
    have hsorted_eq : sortByCmp recordCmp (pf1.bookmarks.map Prod.snd) =
        sortByCmp recordCmp (pf2.bookmarks.map Prod.snd) := by
      apply sorted_perm_eq
      · exact (sortByCmp_perm _ _).trans (hvperm.trans (sortByCmp_perm _ _).symm)
      · exact sortByCmp_pairwise _
      · exact sortByCmp_pairwise _
      · intro a ha b hb he
        exact hd a ((sortByCmp_perm _ _).mem_iff.mp ha) b
          ((sortByCmp_perm _ _).mem_iff.mp hb) he
    have hrstep : renderStep pf1 = renderStep pf2 := by
      funext v sep st i
      unfold renderStep
      rw [hinv, hlt, hlc]
    have hfab : formatted_add_bookmark pf1 = formatted_add_bookmark pf2 := by
      unfold formatted_add_bookmark
      rw [hlt, hlc]
    rw [hsorted_eq, hrstep, hfab, hinv, hlt, hlc]

/-- Witness: a two-record store in both orders renders identically. -/
theorem update_bookmarks_order_independent_witness :
    (List.Perm c10pf1.bookmarks c10pf2.bookmarks ∧
      c10pf1.invalid_lines = c10pf2.invalid_lines ∧
      TiesDistinct (c10pf1.bookmarks.map Prod.snd)) ∧
    PlainText.new.update_bookmarks c10pf1 = PlainText.new.update_bookmarks c10pf2 :=
  ⟨⟨List.Perm.swap (c10b.url, c10b) (c10a.url, c10a) [], rfl, by decide⟩,
   update_bookmarks_order_independent c10pf1 c10pf2 PlainText.new
     (List.Perm.swap (c10b.url, c10b) (c10a.url, c10a) []) rfl rfl rfl (by decide)⟩

/-! ## Claim C8: the categories version counter frame condition -/

theorem aget_ainsert_self {κ ν : Type} [DecidableEq κ] (k : κ) (v : ν) (l : List (κ × ν)) :
    aget k (ainsert k v l) = some v := by
  induction l with
  | nil => simp [ainsert, aget]
  | cons p t ih =>
      obtain ⟨k2, w⟩ := p
      by_cases hk : k2 = k
      · simp [ainsert, aget, hk]
      · simp [ainsert, aget, hk]
        exact ih

theorem aget_ainsert_ne {κ ν : Type} [DecidableEq κ] {k k2 : κ} (h : k2 ≠ k) (v : ν)
    (l : List (κ × ν)) : aget k2 (ainsert k v l) = aget k2 l := by
  have hne : k ≠ k2 := fun he => h he.symm
  induction l with
  | nil => simp [ainsert, aget, hne]
  | cons p t ih =>
      obtain ⟨k3, w⟩ := p
      by_cases hk : k3 = k
      · subst hk
        simp [ainsert, aget, hne]
      · by_cases hk2 : k3 = k2
        · simp [ainsert, aget, hk, hk2, h]
        · simp [ainsert, aget, hk, hk2]
          exact ih

theorem countDec_eq_zero_imp {k : Nat} (h : countDec k = 0) : k ≠ 0 := by
  intro hk
  subst hk
  exact absurd h (by decide)

theorem add_category_of_present {pf : ParsedFile} {c : Str} {k : Nat}
    (hk : aget c pf.category_count = some k) :
    pf.add_category c =
      ({ pf with category_count := ainsert c (countInc k) pf.category_count }, false) := by
  unfold ParsedFile.add_category
  rw [hk]

theorem add_category_count_of_absent {pf : ParsedFile} {c : Str}
    (hk : aget c pf.category_count = none) :
    aget c (pf.add_category c).1.category_count = some 1 := by
  unfold ParsedFile.add_category
  rw [hk]
  cases hb : binary_search pf.categories c with
  | error idx =>
      simp only [hb]
      exact aget_ainsert_self c 1 _
  | ok idx =>
      simp only [hb]
      exact aget_ainsert_self c 1 _

theorem remove_category_of_absent {pf : ParsedFile} {c : Str}
    (hk : aget c pf.category_count = none) :
    pf.remove_category c = (pf, false) := by
  unfold ParsedFile.remove_category
  rw [hk]

theorem remove_category_of_present_ne {pf : ParsedFile} {c : Str} {k : Nat}
    (hk : aget c pf.category_count = some k) (hz : countDec k ≠ 0) :
    pf.remove_category c =
      ({ pf with category_count := ainsert c (countDec k) pf.category_count }, false) := by
  unfold ParsedFile.remove_category
  rw [hk]
  simp [hz]

theorem remove_category_count_of_present {pf : ParsedFile} {c : Str} {k : Nat}
    (hk : aget c pf.category_count = some k) :
    aget c (pf.remove_category c).1.category_count = some (countDec k) := by
  unfold ParsedFile.remove_category
  rw [hk]
  by_cases hz : countDec k = 0
  · simp only [hz, if_true]
    cases hb : binary_search pf.categories c with
    | ok idx =>
        simp only [hb]
        rw [show (0 : Nat) = countDec k from hz.symm]
        exact aget_ainsert_self c (countDec k) _
    | error idx =>
        simp only [hb]
        rw [show (0 : Nat) = countDec k from hz.symm]
        exact aget_ainsert_self c (countDec k) _
  · simp only [hz, if_false]
    exact aget_ainsert_self c (countDec k) _

theorem aget_add_category_ne {pf : ParsedFile} {c c2 : Str} (hne : c2 ≠ c) :
    aget c2 (pf.add_category c).1.category_count = aget c2 pf.category_count := by
  unfold ParsedFile.add_category
  cases hk : aget c pf.category_count with
  | some k =>
      simp only []
      exact aget_ainsert_ne hne _ _
  | none =>
      cases hb : binary_search pf.categories c with
      | error idx =>
          simp only [hb]
          exact aget_ainsert_ne hne _ _
      | ok idx =>
          simp only [hb]
          exact aget_ainsert_ne hne _ _

theorem ite_update_count (P : Prop) [Decidable P] (x : ParsedFile)
    (m1 m2 : List (Str × Bookmark)) :
    (if P then { x with bookmarks := m1 } else { x with bookmarks := m2 }).category_count =
      x.category_count := by
  split <;> rfl

theorem ite_update_cats (P : Prop) [Decidable P] (x : ParsedFile)
    (m1 m2 : List (Str × Bookmark)) :
    (if P then { x with bookmarks := m1 } else { x with bookmarks := m2 }).categories =
      x.categories := by
  split <;> rfl

theorem modify_bookmark_cats_reduce (pf : ParsedFile) (pt : PlainText) (nb ob : Bookmark)
    (heq : ¬ ob = nb) (hcat : ¬ ob.category = nb.category) :
    ∃ pf1 : ParsedFile,
      pf1.category_count = pf.category_count ∧ pf1.categories = pf.categories ∧
      (pf.modify_bookmark pt nb ob).1.category_count =
        (((pf1.remove_category ob.category).1.add_category nb.category).1).category_count ∧
      (pf.modify_bookmark pt nb ob).1.categories =
        (((pf1.remove_category ob.category).1.add_category nb.category).1).categories ∧
      (pf.modify_bookmark pt nb ob).2.current_categories_version =
        (if ((pf1.remove_category ob.category).2 ||
            ((pf1.remove_category ob.category).1.add_category nb.category).2) = true
         then pt.current_categories_version + 1 else pt.current_categories_version) ∧
      (pf.modify_bookmark pt nb ob).2.categories = pt.categories := by
  by_cases htitle : ob.title = nb.title
  · refine ⟨pf, rfl, rfl, ?_, ?_, ?_, ?_⟩ <;>
      by_cases hurl : ob.url = nb.url <;>
        simp [ParsedFile.modify_bookmark, heq, hcat, htitle, hurl,
          PlainText.increment_bookmarks_version, PlainText.increment_categories_version,
          PlainText.set_edited_true] <;>
        split <;> rfl
  · refine ⟨(pf.remove_titles_char_count ob.title).add_titles_char_count nb.title,
      rfl, rfl, ?_, ?_, ?_, ?_⟩ <;>
      by_cases hurl : ob.url = nb.url <;>
        simp [ParsedFile.modify_bookmark, heq, hcat, htitle, hurl,
          PlainText.increment_bookmarks_version, PlainText.increment_categories_version,
          PlainText.set_edited_true] <;>
        split <;> rfl

/-- C8: a single `add_bookmark` / `modify_bookmark` / `remove_bookmark` whose
touched categories do not cross the 0↔1 reference-count boundary leaves the
categories version counter, the cached category listing, and the sorted
category list unchanged — i.e. the version advances only when the set of
in-use names changes. -/
theorem categories_version_frame (pf : ParsedFile) (pt : PlainText) (op : FOp)
    (h : noCrossing pf (applyOp (pf, pt) op).1 (opCats pf op)) :
    (applyOp (pf, pt) op).2.current_categories_version = pt.current_categories_version ∧
    (applyOp (pf, pt) op).2.categories = pt.categories ∧
    (applyOp (pf, pt) op).1.categories = pf.categories := by
  cases op with
  | fadd b =>
      cases hk : aget b.category pf.category_count with
      | none =>
          exfalso
          have hb := h b.category (by simp [opCats])
          apply hb
          left
          constructor
          · simp [countVal, hk]
          · have hpost : aget b.category (applyOp (pf, pt) (.fadd b)).1.category_count = some 1 := by
              show aget b.category (pf.add_bookmark pt b).1.category_count = some 1
              have hcc : (pf.add_bookmark pt b).1.category_count =
                  (pf.add_category b.category).1.category_count := rfl
              rw [hcc]
              exact add_category_count_of_absent hk
            simp [countVal, hpost]
      | some k =>
          refine ⟨?_, ?_, ?_⟩ <;>
            simp [applyOp, ParsedFile.add_bookmark, add_category_of_present hk,
              ParsedFile.add_titles_char_count, PlainText.increment_bookmarks_version,
              PlainText.set_edited_true]
  | fremove u =>
      cases hg : aget u pf.bookmarks with
      | none =>
          refine ⟨?_, ?_, ?_⟩ <;> simp [applyOp, ParsedFile.remove_bookmark, hg]
      | some bk =>
          have hcats : opCats pf (.fremove u) = [bk.category] := by simp [opCats, hg]
          have hb := h bk.category (by rw [hcats]; simp)
          cases hk : aget bk.category pf.category_count with
          | none =>
              refine ⟨?_, ?_, ?_⟩ <;>
                simp [applyOp, ParsedFile.remove_bookmark, hg,
                  @remove_category_of_absent { pf with bookmarks := aerase u pf.bookmarks }
                    bk.category hk,
                  ParsedFile.remove_titles_char_count, PlainText.increment_bookmarks_version,
                  PlainText.set_edited_true]
          | some k =>
              by_cases hz : countDec k = 0
              · exfalso
                apply hb
                right
                constructor
                · simp [countVal, hk]
                  exact countDec_eq_zero_imp hz
                · have hpost : aget bk.category (applyOp (pf, pt) (.fremove u)).1.category_count =
                      some (countDec k) := by
                    show aget bk.category (pf.remove_bookmark pt u).1.category_count = _
                    unfold ParsedFile.remove_bookmark
                    rw [hg]
                    have hcc : ((({ pf with bookmarks := aerase u pf.bookmarks } :
                        ParsedFile).remove_category bk.category).1.remove_titles_char_count
                          bk.title).category_count =
                        (({ pf with bookmarks := aerase u pf.bookmarks } :
                        ParsedFile).remove_category bk.category).1.category_count := rfl
                    simp only []
                    rw [hcc]
                    exact remove_category_count_of_present hk
                  simp [countVal, hpost, hz]
              · refine ⟨?_, ?_, ?_⟩ <;>
                  simp [applyOp, ParsedFile.remove_bookmark, hg,
                    @remove_category_of_present_ne
                      { pf with bookmarks := aerase u pf.bookmarks }
                      bk.category _ hk hz,
                    ParsedFile.remove_titles_char_count, PlainText.increment_bookmarks_version,
                    PlainText.set_edited_true]
  | fmodify nb ob =>
      by_cases heq : ob = nb
      · refine ⟨?_, ?_, ?_⟩ <;> simp [applyOp, ParsedFile.modify_bookmark, heq]
      · by_cases hcat : ob.category = nb.category
        · refine ⟨?_, ?_, ?_⟩ <;>
            by_cases htitle : ob.title = nb.title <;>
              by_cases hurl : ob.url = nb.url <;>
                simp [applyOp, ParsedFile.modify_bookmark, heq, hcat, htitle, hurl,
                  ParsedFile.add_titles_char_count, ParsedFile.remove_titles_char_count,
                  PlainText.increment_bookmarks_version, PlainText.set_edited_true]
        · have hob := h ob.category (by simp [opCats])
          have hnb := h nb.category (by simp [opCats])
          have hnecat : nb.category ≠ ob.category := fun he => hcat he.symm
          obtain ⟨pf1, hcnt, hcats, hfc, hfcats, hver, hptc⟩ :=
            modify_bookmark_cats_reduce pf pt nb ob heq hcat
          have hk1 : ∀ {o}, aget ob.category pf.category_count = o →
              aget ob.category pf1.category_count = o := fun ho => by rw [hcnt]; exact ho
          cases hk : aget ob.category pf.category_count with
          | none =>
              have hr := @remove_category_of_absent pf1 ob.category (hk1 hk)
              cases hk2 : aget nb.category pf.category_count with
              | none =>
                  exfalso
                  apply hnb
                  left
                  refine ⟨by simp [countVal, hk2], ?_⟩
                  have hpost : aget nb.category
                      (applyOp (pf, pt) (.fmodify nb ob)).1.category_count = some 1 := by
                    show aget nb.category (pf.modify_bookmark pt nb ob).1.category_count = some 1
                    rw [hfc, hr]
                    exact add_category_count_of_absent (by rw [hcnt]; exact hk2)
                  simp [countVal, hpost]
              | some k2 =>
                  have ha := @add_category_of_present pf1 nb.category k2 (by rw [hcnt]; exact hk2)
                  have hb2 : ((pf1.remove_category ob.category).2 ||
                      ((pf1.remove_category ob.category).1.add_category nb.category).2) = false := by
                    rw [hr]
                    simp [ha]
                  simp only [applyOp]
                  refine ⟨?_, ?_, ?_⟩
                  · rw [hver, hb2]
                    simp
                  · exact hptc
                  · rw [hfcats, hr]
                    simp only [ha]
                    exact hcats
          | some k =>
              by_cases hz : countDec k = 0
              · exfalso
                apply hob
                right
                refine ⟨by simp [countVal, hk]; exact countDec_eq_zero_imp hz, ?_⟩
                have hpost : aget ob.category
                    (applyOp (pf, pt) (.fmodify nb ob)).1.category_count = some (countDec k) := by
                  show aget ob.category (pf.modify_bookmark pt nb ob).1.category_count = _
                  rw [hfc]
                  rw [@aget_add_category_ne (pf1.remove_category ob.category).1 nb.category ob.category hcat]
                  exact remove_category_count_of_present (hk1 hk)
                simp [countVal, hpost, hz]
              · have hr := @remove_category_of_present_ne pf1 ob.category k (hk1 hk) hz
                have hk2' : aget nb.category
                    (ainsert ob.category (countDec k) pf1.category_count) =
                      aget nb.category pf.category_count := by
                  rw [aget_ainsert_ne hnecat, hcnt]
                cases hk2 : aget nb.category pf.category_count with
                | none =>
                    exfalso
                    apply hnb
                    left
                    refine ⟨by simp [countVal, hk2], ?_⟩
                    have hpost : aget nb.category
                        (applyOp (pf, pt) (.fmodify nb ob)).1.category_count = some 1 := by
                      show aget nb.category (pf.modify_bookmark pt nb ob).1.category_count = some 1
                      rw [hfc, hr]
                      exact add_category_count_of_absent (by rw [hk2']; exact hk2)
                    simp [countVal, hpost]
                | some k2 =>
                    have ha := @add_category_of_present { pf1 with category_count := ainsert ob.category (countDec k) pf1.category_count } nb.category k2 (by rw [hk2']; exact hk2)
                    have hb2 : ((pf1.remove_category ob.category).2 ||
                        ((pf1.remove_category ob.category).1.add_category nb.category).2) =
                          false := by
                      rw [hr]
                      simp [ha]
                    simp only [applyOp]
                    refine ⟨?_, ?_, ?_⟩
                    · rw [hver, hb2]
                      simp
                    · exact hptc
                    · rw [hfcats, hr]
                      simp only [ha]
                      exact hcats

/-- Witness: adding a record under an already-in-use category (count 1 → 2)
leaves the categories version and listings unchanged. -/
theorem categories_version_frame_witness :
    noCrossing oneState.1 (applyOp (oneState.1, oneState.2) (.fadd c8b)).1
      (opCats oneState.1 (.fadd c8b)) ∧
    ((applyOp (oneState.1, oneState.2) (.fadd c8b)).2.current_categories_version =
        oneState.2.current_categories_version ∧
      (applyOp (oneState.1, oneState.2) (.fadd c8b)).2.categories = oneState.2.categories ∧
      (applyOp (oneState.1, oneState.2) (.fadd c8b)).1.categories = oneState.1.categories) :=
  ⟨by decide, categories_version_frame oneState.1 oneState.2 (.fadd c8b) (by decide)⟩

/-! ## The width-histogram invariant and claim C2 -/

theorem le_maxL {x : Nat} {l : List Nat} (h : x ∈ l) : x ≤ maxL l := by
  induction l with
  | nil => simp at h
  | cons y t ih =>
      rcases List.mem_cons.mp h with rfl | h2
      · simp [maxL, List.foldr]
      · have := ih h2
        simp [maxL, List.foldr] at this ⊢
        omega

theorem maxL_mem {l : List Nat} (h : 1 ≤ maxL l) : maxL l ∈ l := by
  induction l with
  | nil => simp [maxL] at h
  | cons y t ih =>
      show max y (maxL t) ∈ y :: t
      by_cases hy : maxL t ≤ y
      · rw [Nat.max_eq_left hy]
        simp
      · rw [Nat.max_eq_right (by omega)]
        right
        apply ih
        have : max y (maxL t) = maxL t := Nat.max_eq_right (by omega)
        rw [show maxL (y :: t) = max y (maxL t) from rfl, this] at h
        exact h

theorem maxL_perm {l1 l2 : List Nat} (h : List.Perm l1 l2) : maxL l1 = maxL l2 := by
  induction h with
  | nil => rfl
  | cons x _ ih => simp [maxL, List.foldr] at ih ⊢; omega
  | swap x y t => show max y (max x (maxL t)) = max x (max y (maxL t)); omega
  | trans _ _ ih1 ih2 => exact ih1.trans ih2

theorem getD_set_self (v : List Nat) (n x : Nat) (h : n < v.length) :
    (v.set n x).getD n 0 = x := by
  simp [List.getD_eq_getElem?_getD, List.getElem?_set_self, h]

theorem getD_set_ne (v : List Nat) {n l : Nat} (hne : l ≠ n) (x : Nat) :
    (v.set n x).getD l 0 = v.getD l 0 := by
  simp [List.getD_eq_getElem?_getD, List.getElem?_set_ne (fun he => hne he.symm)]

theorem count_cons_ne {a b : Nat} (h : a ≠ b) (l : List Nat) :
    (b :: l).count a = l.count a := by
  rw [List.count_cons]
  simp [h, Ne.symm h]

theorem count_cons_self (a : Nat) (l : List Nat) : (a :: l).count a = l.count a + 1 := by
  rw [List.count_cons]
  simp

theorem scanDown_eq_maxL (v : List Nat) (lens : List Nat) :
    ∀ n, (∀ j, 1 ≤ j → j ≤ n → v.getD j 0 = lens.count j) → maxL lens ≤ n →
      scanDown v n = maxL lens := by
  intro n
  induction n with
  | zero => intro _ hm; simp [scanDown]; omega
  | succ n ih =>
      intro h hm
      have hc : v.getD (n + 1) 0 = lens.count (n + 1) := h (n + 1) (by omega) (Nat.le_refl _)
      by_cases hpos : 0 < lens.count (n + 1)
      · rw [show scanDown v (n + 1) = if 0 < v.getD (n + 1) 0 then n + 1 else scanDown v n
            from rfl]
        rw [if_pos (by rw [hc]; exact hpos)]
        have hmem : (n + 1) ∈ lens := List.count_pos_iff.mp hpos
        have := le_maxL hmem
        omega
      · rw [show scanDown v (n + 1) = if 0 < v.getD (n + 1) 0 then n + 1 else scanDown v n
            from rfl]
        rw [if_neg (by rw [hc]; omega)]
        apply ih (fun j h1 h2 => h j h1 (by omega))
        by_cases hmx : maxL lens = n + 1
        · exfalso
          have hmem : maxL lens ∈ lens := maxL_mem (by omega)
          have : 0 < lens.count (n + 1) := by
            rw [← hmx]
            exact List.count_pos_iff.mpr hmem
          omega
        · omega

theorem histInv_perm {vec : List Nat} {longest : Nat} {lens lens2 : List Nat}
    (hp : List.Perm lens lens2) (h : HistInv vec longest lens) : HistInv vec longest lens2 := by
  obtain ⟨h1, h2, h3, h4⟩ := h
  refine ⟨h1, fun l hl => h2 l (hp.mem_iff.mpr hl), fun l hl => ?_, ?_⟩
  · rw [h3 l hl, hp.count_eq]
  · rw [h4, maxL_perm hp]

theorem hist_add {vec : List Nat} {longest : Nat} {lens : List Nat} (field : Str)
    (h : HistInv vec longest lens) (hb : field.length ≤ TITLE_MAX_LENGTH) :
    HistInv (add_char_count vec longest field).1 (add_char_count vec longest field).2
      (field.length :: lens) := by
  obtain ⟨hlen, hbnd, hcnt, hmax⟩ := h
  by_cases h0 : field.length = 0
  · have hred : add_char_count vec longest field = (vec, longest) := by
      unfold add_char_count
      rw [if_pos h0]
    rw [hred]
    show HistInv vec longest (field.length :: lens)
    refine ⟨hlen, ?_, ?_, ?_⟩
    · intro l hl
      rcases List.mem_cons.mp hl with rfl | h2
      · omega
      · exact hbnd l h2
    · intro l hl
      rw [hcnt l hl, count_cons_ne (by omega) lens]
    · rw [hmax]
      show maxL lens = max field.length (maxL lens)
      omega
  · have hpos : 1 ≤ field.length := by omega
    have hlt : field.length < vec.length := by
      rw [hlen]
      omega
    have hred : add_char_count vec longest field =
        (vec.set field.length (vec.getD field.length 0 + 1),
         if longest < field.length then field.length else longest) := by
      unfold add_char_count
      rw [if_neg h0, if_pos hlt]
    rw [hred]
    show HistInv (vec.set field.length (vec.getD field.length 0 + 1))
      (if longest < field.length then field.length else longest) (field.length :: lens)
    refine ⟨by simp [hlen], ?_, ?_, ?_⟩
    · intro l hl
      rcases List.mem_cons.mp hl with rfl | h2
      · exact hb
      · exact hbnd l h2
    · intro l hl
      by_cases hle : l = field.length
      · subst hle
        rw [getD_set_self vec field.length _ hlt, hcnt field.length hl, count_cons_self]
      · rw [getD_set_ne vec hle _, hcnt l hl, count_cons_ne hle]
    · rw [show maxL (field.length :: lens) = max field.length (maxL lens) from rfl, ← hmax]
      by_cases hc : longest < field.length
      · rw [if_pos hc]
        omega
      · rw [if_neg hc]
        omega

theorem hist_remove {vec : List Nat} {longest : Nat} {lens : List Nat} (field : Str)
    (h : HistInv vec longest (field.length :: lens)) :
    HistInv (remove_char_count vec longest field).1 (remove_char_count vec longest field).2
      lens := by
  obtain ⟨hlen, hbnd, hcnt, hmax⟩ := h
  by_cases h0 : field.length = 0
  · have hred : remove_char_count vec longest field = (vec, longest) := by
      unfold remove_char_count
      rw [if_pos h0]
    rw [hred]
    show HistInv vec longest lens
    refine ⟨hlen, fun l hl => hbnd l (by simp [hl]), ?_, ?_⟩
    · intro l hl
      rw [hcnt l hl, count_cons_ne (by omega) lens]
    · rw [hmax]
      show maxL (field.length :: lens) = maxL lens
      rw [show maxL (field.length :: lens) = max field.length (maxL lens) from rfl, h0]
      omega
  · have hpos : 1 ≤ field.length := by omega
    have hfb : field.length ≤ TITLE_MAX_LENGTH := hbnd field.length (by simp)
    have hlt : field.length < vec.length := by
      rw [hlen]
      omega
    have hcntf : vec.getD field.length 0 = lens.count field.length + 1 := by
      rw [hcnt field.length hpos, count_cons_self]
    have hamount : vec.getD field.length 0 - 1 = lens.count field.length := by omega
    have hcnt2 : ∀ l, 1 ≤ l →
        (vec.set field.length (vec.getD field.length 0 - 1)).getD l 0 = lens.count l := by
      intro l hl
      by_cases hle : l = field.length
      · subst hle
        rw [getD_set_self vec field.length _ hlt]
        exact hamount
      · rw [getD_set_ne vec hle _, hcnt l hl, count_cons_ne hle]
    have hmax2 : longest = max field.length (maxL lens) := hmax
    by_cases hIf : vec.getD field.length 0 - 1 = 0 ∧ field.length = longest
    · have hred : remove_char_count vec longest field =
          (vec.set field.length (vec.getD field.length 0 - 1),
           scanDown (vec.set field.length (vec.getD field.length 0 - 1)) field.length) := by
        unfold remove_char_count
        rw [if_neg h0, if_pos hlt, if_pos hIf]
      rw [hred]
      refine ⟨by simp [hlen], fun l hl => hbnd l (by simp [hl]), hcnt2, ?_⟩
      show scanDown _ field.length = maxL lens
      apply scanDown_eq_maxL _ lens field.length (fun j h1 h2 => hcnt2 j h1)
      omega
    · have hred : remove_char_count vec longest field =
          (vec.set field.length (vec.getD field.length 0 - 1), longest) := by
        unfold remove_char_count
        rw [if_neg h0, if_pos hlt, if_neg hIf]
      rw [hred]
      refine ⟨by simp [hlen], fun l hl => hbnd l (by simp [hl]), hcnt2, ?_⟩
      show longest = maxL lens
      rcases Decidable.not_and_iff_or_not.mp hIf with hc | hc
      · have : 0 < lens.count field.length := by omega
        have hmem : field.length ∈ lens := List.count_pos_iff.mp this
        have := le_maxL hmem
        omega
      · have hne : field.length ≠ longest := hc
        rcases Nat.le_total field.length (maxL lens) with hle | hle
        · omega
        · exfalso
          apply hne
          omega

theorem aget_cons {κ ν : Type} [DecidableEq κ] (k k2 : κ) (w : ν) (t : List (κ × ν)) :
    aget k ((k2, w) :: t) = if k2 = k then some w else aget k t := rfl

theorem ainsert_cons {κ ν : Type} [DecidableEq κ] (k k2 : κ) (v w : ν) (t : List (κ × ν)) :
    ainsert k v ((k2, w) :: t) = if k2 = k then (k, v) :: t else (k2, w) :: ainsert k v t := rfl

theorem aerase_cons {κ ν : Type} [DecidableEq κ] (k k2 : κ) (w : ν) (t : List (κ × ν)) :
    aerase k ((k2, w) :: t) = if k2 = k then t else (k2, w) :: aerase k t := rfl

theorem ainsert_fresh_eq_append {κ ν : Type} [DecidableEq κ] {k : κ} (v : ν)
    {m : List (κ × ν)} (h : aget k m = none) : ainsert k v m = m ++ [(k, v)] := by
  induction m with
  | nil => rfl
  | cons p t ih =>
      obtain ⟨k2, w⟩ := p
      rw [aget_cons] at h
      by_cases he : k2 = k
      · rw [if_pos he] at h
        exact Option.noConfusion h
      · rw [if_neg he] at h
        rw [ainsert_cons, if_neg he, ih h]
        rfl

theorem aerase_values_perm {κ ν : Type} [DecidableEq κ] {k : κ} {v : ν} {m : List (κ × ν)}
    (h : aget k m = some v) :
    List.Perm (m.map Prod.snd) (v :: (aerase k m).map Prod.snd) := by
  induction m with
  | nil => exact Option.noConfusion h
  | cons p t ih =>
      obtain ⟨k2, w⟩ := p
      rw [aget_cons] at h
      by_cases he : k2 = k
      · rw [if_pos he] at h
        injection h with hv
        rw [aerase_cons, if_pos he, ← hv]
        exact List.Perm.refl _
      · rw [if_neg he] at h
        rw [aerase_cons, if_neg he]
        show List.Perm (w :: t.map Prod.snd) (v :: w :: (aerase k t).map Prod.snd)
        exact ((ih h).cons w).trans (List.Perm.swap v w _)

theorem ainsert_present_values_perm {κ ν : Type} [DecidableEq κ] {k : κ} {v : ν} (w : ν)
    {m : List (κ × ν)} (h : aget k m = some v) :
    List.Perm ((ainsert k w m).map Prod.snd) (w :: (aerase k m).map Prod.snd) := by
  induction m with
  | nil => exact Option.noConfusion h
  | cons p t ih =>
      obtain ⟨k2, u⟩ := p
      rw [aget_cons] at h
      by_cases he : k2 = k
      · rw [ainsert_cons, if_pos he, aerase_cons, if_pos he]
        exact List.Perm.refl _
      · rw [if_neg he] at h
        rw [ainsert_cons, if_neg he, aerase_cons, if_neg he]
        show List.Perm (u :: (ainsert k w t).map Prod.snd)
          (w :: u :: (aerase k t).map Prod.snd)
        exact ((ih h).cons u).trans (List.Perm.swap w u _)

theorem aget_aerase_none {κ ν : Type} [DecidableEq κ] {k : κ} (k2 : κ) {m : List (κ × ν)}
    (h : aget k m = none) : aget k (aerase k2 m) = none := by
  induction m with
  | nil => rfl
  | cons p t ih =>
      obtain ⟨k3, w⟩ := p
      rw [aget_cons] at h
      by_cases he : k3 = k
      · rw [if_pos he] at h
        exact Option.noConfusion h
      · rw [if_neg he] at h
        rw [aerase_cons]
        by_cases he2 : k3 = k2
        · rw [if_pos he2]
          exact h
        · rw [if_neg he2, aget_cons, if_neg he]
          exact ih h

theorem perm_append_one {α : Type} (a : α) (l : List α) : List.Perm (l ++ [a]) (a :: l) := by
  induction l with
  | nil => exact List.Perm.refl _
  | cons y t ih => exact (ih.cons y).trans (List.Perm.swap a y t)

theorem add_category_titles_cc (pf : ParsedFile) (c : Str) :
    (pf.add_category c).1.titles_char_count = pf.titles_char_count := by
  unfold ParsedFile.add_category
  cases h1 : aget c pf.category_count with
  | some k => rfl
  | none =>
      cases hb : binary_search pf.categories c <;> simp only [hb] <;> try rfl

theorem add_category_longest (pf : ParsedFile) (c : Str) :
    (pf.add_category c).1.longest_title = pf.longest_title := by
  unfold ParsedFile.add_category
  cases h1 : aget c pf.category_count with
  | some k => rfl
  | none =>
      cases hb : binary_search pf.categories c <;> simp only [hb] <;> try rfl

theorem add_category_bms (pf : ParsedFile) (c : Str) :
    (pf.add_category c).1.bookmarks = pf.bookmarks := by
  unfold ParsedFile.add_category
  cases h1 : aget c pf.category_count with
  | some k => rfl
  | none =>
      cases hb : binary_search pf.categories c <;> simp only [hb] <;> try rfl

theorem remove_category_titles_cc (pf : ParsedFile) (c : Str) :
    (pf.remove_category c).1.titles_char_count = pf.titles_char_count := by
  unfold ParsedFile.remove_category
  cases h1 : aget c pf.category_count with
  | none => rfl
  | some k =>
      by_cases hz : countDec k = 0
      · simp only [hz, if_true]
        cases hb : binary_search pf.categories c <;> simp only [hb] <;> try rfl
      · simp only [hz, if_false]

theorem remove_category_longest (pf : ParsedFile) (c : Str) :
    (pf.remove_category c).1.longest_title = pf.longest_title := by
  unfold ParsedFile.remove_category
  cases h1 : aget c pf.category_count with
  | none => rfl
  | some k =>
      by_cases hz : countDec k = 0
      · simp only [hz, if_true]
        cases hb : binary_search pf.categories c <;> simp only [hb] <;> try rfl
      · simp only [hz, if_false]

theorem remove_category_bms (pf : ParsedFile) (c : Str) :
    (pf.remove_category c).1.bookmarks = pf.bookmarks := by
  unfold ParsedFile.remove_category
  cases h1 : aget c pf.category_count with
  | none => rfl
  | some k =>
      by_cases hz : countDec k = 0
      · simp only [hz, if_true]
        cases hb : binary_search pf.categories c <;> simp only [hb] <;> try rfl
      · simp only [hz, if_false]

theorem titleInv_add (pf : ParsedFile) (pt : PlainText) (b : Bookmark)
    (hfresh : aget b.url pf.bookmarks = none) (hlen : b.title.length ≤ TITLE_MAX_LENGTH)
    (h : TitleInv pf) : TitleInv (pf.add_bookmark pt b).1 := by
  show HistInv
    (add_char_count (pf.add_category b.category).1.titles_char_count
      (pf.add_category b.category).1.longest_title b.title).1
    (add_char_count (pf.add_category b.category).1.titles_char_count
      (pf.add_category b.category).1.longest_title b.title).2
    ((ainsert b.url b (pf.add_category b.category).1.bookmarks).map
      (fun kv => kv.2.title.length))
  rw [add_category_titles_cc, add_category_longest, add_category_bms,
    ainsert_fresh_eq_append b hfresh, List.map_append]
  exact histInv_perm (perm_append_one _ _).symm (hist_add b.title h hlen)

theorem titleInv_remove (pf : ParsedFile) (pt : PlainText) (u : Str)
    (h : TitleInv pf) : TitleInv (pf.remove_bookmark pt u).1 := by
  cases hg : aget u pf.bookmarks with
  | none =>
      have hred : pf.remove_bookmark pt u = (pf, pt) := by
        unfold ParsedFile.remove_bookmark
        rw [hg]
      rw [hred]
      exact h
  | some bk =>
      have hred : (pf.remove_bookmark pt u).1 =
          (({ pf with bookmarks := aerase u pf.bookmarks } : ParsedFile).remove_category
            bk.category).1.remove_titles_char_count bk.title := by
        unfold ParsedFile.remove_bookmark
        rw [hg]
      rw [hred]
      show HistInv
        (remove_char_count
          (({ pf with bookmarks := aerase u pf.bookmarks } : ParsedFile).remove_category
            bk.category).1.titles_char_count
          (({ pf with bookmarks := aerase u pf.bookmarks } : ParsedFile).remove_category
            bk.category).1.longest_title bk.title).1
        (remove_char_count
          (({ pf with bookmarks := aerase u pf.bookmarks } : ParsedFile).remove_category
            bk.category).1.titles_char_count
          (({ pf with bookmarks := aerase u pf.bookmarks } : ParsedFile).remove_category
            bk.category).1.longest_title bk.title).2
        ((({ pf with bookmarks := aerase u pf.bookmarks } : ParsedFile).remove_category
            bk.category).1.bookmarks.map (fun kv => kv.2.title.length))
      rw [remove_category_titles_cc, remove_category_longest, remove_category_bms]
      have hp1 := (aerase_values_perm hg).map (fun b : Bookmark => b.title.length)
      simp only [List.map_map, List.map_cons, Function.comp] at hp1
      exact hist_remove bk.title (histInv_perm hp1 h)

theorem titleInv_modify (pf : ParsedFile) (pt : PlainText) (nb ob : Bookmark)
    (hob : aget ob.url pf.bookmarks = some ob)
    (hnu : nb.url = ob.url ∨ aget nb.url pf.bookmarks = none)
    (hlen : nb.title.length ≤ TITLE_MAX_LENGTH)
    (h : TitleInv pf) : TitleInv (pf.modify_bookmark pt nb ob).1 := by
  by_cases heq : ob = nb
  · have hred : pf.modify_bookmark pt nb ob = (pf, pt) := by
      unfold ParsedFile.modify_bookmark
      rw [if_pos heq]
    rw [hred]
    exact h
  · have hp1 := (aerase_values_perm hob).map (fun b : Bookmark => b.title.length)
    simp only [List.map_map, List.map_cons, Function.comp] at hp1
    by_cases htitle : ob.title = nb.title
    · have htc : (pf.modify_bookmark pt nb ob).1.titles_char_count = pf.titles_char_count := by
        by_cases hcat : ob.category = nb.category <;> by_cases hurl : ob.url = nb.url <;>
          simp [ParsedFile.modify_bookmark, heq, htitle, hcat, hurl,
            add_category_titles_cc, remove_category_titles_cc]
      have hlt : (pf.modify_bookmark pt nb ob).1.longest_title = pf.longest_title := by
        by_cases hcat : ob.category = nb.category <;> by_cases hurl : ob.url = nb.url <;>
          simp [ParsedFile.modify_bookmark, heq, htitle, hcat, hurl,
            add_category_longest, remove_category_longest]
      have hbm : (pf.modify_bookmark pt nb ob).1.bookmarks =
          if ob.url = nb.url then ainsert ob.url nb pf.bookmarks
          else ainsert nb.url nb (aerase ob.url pf.bookmarks) := by
        by_cases hcat : ob.category = nb.category <;> by_cases hurl : ob.url = nb.url <;>
          simp [ParsedFile.modify_bookmark, heq, htitle, hcat, hurl,
            ParsedFile.add_titles_char_count, ParsedFile.remove_titles_char_count,
            add_category_bms, remove_category_bms]
      unfold TitleInv liveTitleLens
      rw [htc, hlt, hbm]
      rw [show ob.title.length = nb.title.length from by rw [htitle]] at hp1
      have h' := histInv_perm hp1 h
      by_cases hurl : ob.url = nb.url
      · rw [if_pos hurl]
        have hp2 := (ainsert_present_values_perm nb hob).map (fun b : Bookmark => b.title.length)
        simp only [List.map_map, List.map_cons, Function.comp] at hp2
        exact histInv_perm hp2.symm h'
      · rw [if_neg hurl]
        have hfresh : aget nb.url pf.bookmarks = none := by
          rcases hnu with he | hn
          · exact absurd he.symm hurl
          · exact hn
        rw [ainsert_fresh_eq_append nb (aget_aerase_none ob.url hfresh), List.map_append]
        exact histInv_perm (perm_append_one _ _).symm h'
    · have htc : (pf.modify_bookmark pt nb ob).1.titles_char_count =
          ((pf.remove_titles_char_count ob.title).add_titles_char_count
            nb.title).titles_char_count := by
        by_cases hcat : ob.category = nb.category <;> by_cases hurl : ob.url = nb.url <;>
          simp [ParsedFile.modify_bookmark, heq, htitle, hcat, hurl,
            add_category_titles_cc, remove_category_titles_cc]
      have hlt : (pf.modify_bookmark pt nb ob).1.longest_title =
          ((pf.remove_titles_char_count ob.title).add_titles_char_count
            nb.title).longest_title := by
        by_cases hcat : ob.category = nb.category <;> by_cases hurl : ob.url = nb.url <;>
          simp [ParsedFile.modify_bookmark, heq, htitle, hcat, hurl,
            add_category_longest, remove_category_longest]
      have hbm : (pf.modify_bookmark pt nb ob).1.bookmarks =
          if ob.url = nb.url then ainsert ob.url nb pf.bookmarks
          else ainsert nb.url nb (aerase ob.url pf.bookmarks) := by
        by_cases hcat : ob.category = nb.category <;> by_cases hurl : ob.url = nb.url <;>
          simp [ParsedFile.modify_bookmark, heq, htitle, hcat, hurl,
            ParsedFile.add_titles_char_count, ParsedFile.remove_titles_char_count,
            add_category_bms, remove_category_bms]
      unfold TitleInv liveTitleLens
      rw [htc, hlt, hbm]
      have h3 := hist_add nb.title (hist_remove ob.title (histInv_perm hp1 h)) hlen
      by_cases hurl : ob.url = nb.url
      · rw [if_pos hurl]
        have hp2 := (ainsert_present_values_perm nb hob).map (fun b : Bookmark => b.title.length)
        simp only [List.map_map, List.map_cons, Function.comp] at hp2
        exact histInv_perm hp2.symm h3
      · rw [if_neg hurl]
        have hfresh : aget nb.url pf.bookmarks = none := by
          rcases hnu with he | hn
          · exact absurd he.symm hurl
          · exact hn
        rw [ainsert_fresh_eq_append nb (aget_aerase_none ob.url hfresh), List.map_append]
        exact histInv_perm (perm_append_one _ _).symm h3

theorem titleInv_op (s : ParsedFile × PlainText) (op : FOp) (h : TitleInv s.1)
    (hwf : opWfB s.1 op = true) : TitleInv (applyOp s op).1 := by
  cases op with
  | fadd b =>
      simp only [opWfB, Bool.and_eq_true, decide_eq_true_eq] at hwf
      exact titleInv_add s.1 s.2 b hwf.1 hwf.2 h
  | fmodify nb ob =>
      simp only [opWfB, Bool.and_eq_true, Bool.or_eq_true, decide_eq_true_eq] at hwf
      exact titleInv_modify s.1 s.2 nb ob hwf.1.1 hwf.1.2 hwf.2 h
  | fremove u => exact titleInv_remove s.1 s.2 u h

theorem titleInv_ops (s : ParsedFile × PlainText) (ops : List FOp) (h : TitleInv s.1)
    (hwf : seqWfB s ops = true) : TitleInv (applyOps s ops).1 := by
  induction ops generalizing s with
  | nil => exact h
  | cons op rest ih =>
      rw [seqWfB, Bool.and_eq_true] at hwf
      exact ih (applyOp s op) (titleInv_op s op h hwf.1) hwf.2

theorem parsedRecords_eq_lineRecs (text : Str) : parsedRecords text = lineRecs (rustLines text) :=
  rfl

theorem getD_replicate_zero (n l : Nat) : (List.replicate n (0 : Nat)).getD l 0 = 0 := by
  induction n generalizing l with
  | zero => rfl
  | succ n ih =>
      cases l with
      | zero => rfl
      | succ m => exact ih m

theorem titleInv_empty : TitleInv emptyParsedFile := by
  refine ⟨by decide, ?_, ?_, rfl⟩
  · intro l hl
    cases hl
  · intro l hl
    exact getD_replicate_zero (TITLE_MAX_LENGTH + 1) l

theorem parseLines_titleInv (lines : List Str) : ∀ (i : Nat) (pf : ParsedFile),
    TitleInv pf → (∀ r ∈ lineRecs lines, aget r.url pf.bookmarks = none) →
    ((lineRecs lines).map Bookmark.url).Nodup →
    (∀ r ∈ lineRecs lines, r.title.length ≤ TITLE_MAX_LENGTH) →
    TitleInv (parseLines i lines pf) := by
  induction lines with
  | nil =>
      intro i pf h _ _ _
      exact h
  | cons line rest ih =>
      intro i pf h hfresh hnd hbd
      by_cases hsep : startsWithSep (rustTrim line) = true
      · have hred : parseLines i (line :: rest) pf = parseLines (i + 1) rest pf := by
          simp only [parseLines]
          rw [if_pos hsep]
        have hrec : lineRecs (line :: rest) = lineRecs rest := by
          simp only [lineRecs, List.filterMap_cons]
          rw [if_pos hsep]
        rw [hred]
        rw [hrec] at hfresh hnd hbd
        exact ih (i + 1) pf h hfresh hnd hbd
      · cases hb : Bookmark.from_line (rustTrim line) with
        | none =>
            have hred : parseLines i (line :: rest) pf =
                parseLines (i + 1) rest
                  { pf with invalid_lines := pf.invalid_lines ++ [(i, line)] } := by
              simp only [parseLines]
              rw [if_neg hsep, hb]
            have hrec : lineRecs (line :: rest) = lineRecs rest := by
              simp only [lineRecs, List.filterMap_cons]
              rw [if_neg hsep, hb]
            rw [hred]
            rw [hrec] at hfresh hnd hbd
            exact ih (i + 1) _ h hfresh hnd hbd
        | some bk =>
            have hred : parseLines i (line :: rest) pf = parseLines (i + 1) rest
                { ((pf.add_titles_char_count bk.title).add_category bk.category).1 with
                  bookmarks := ainsert bk.url bk
                    ((pf.add_titles_char_count bk.title).add_category bk.category).1.bookmarks } := by
              simp only [parseLines]
              rw [if_neg hsep, hb]
            have hrec : lineRecs (line :: rest) = bk :: lineRecs rest := by
              simp only [lineRecs, List.filterMap_cons]
              rw [if_neg hsep, hb]
            rw [hrec] at hfresh hnd hbd
            rw [List.map_cons] at hnd
            rcases List.nodup_cons.mp hnd with ⟨hnd1, hnd2⟩
            have hbkfresh : aget bk.url pf.bookmarks = none := hfresh bk (by simp)
            have hbklen : bk.title.length ≤ TITLE_MAX_LENGTH := hbd bk (by simp)
            rw [hred]
            apply ih (i + 1)
            · show HistInv
                ((pf.add_titles_char_count bk.title).add_category bk.category).1.titles_char_count
                ((pf.add_titles_char_count bk.title).add_category bk.category).1.longest_title
                ((ainsert bk.url bk
                  ((pf.add_titles_char_count bk.title).add_category bk.category).1.bookmarks).map
                  (fun kv => kv.2.title.length))
              rw [add_category_titles_cc, add_category_longest, add_category_bms]
              show HistInv (add_char_count pf.titles_char_count pf.longest_title bk.title).1
                (add_char_count pf.titles_char_count pf.longest_title bk.title).2
                ((ainsert bk.url bk pf.bookmarks).map (fun kv => kv.2.title.length))
              rw [ainsert_fresh_eq_append bk hbkfresh, List.map_append]
              exact histInv_perm (perm_append_one _ _).symm (hist_add bk.title h hbklen)
            · intro r hr
              have hru : r.url ≠ bk.url := by
                intro he
                have hmem : r.url ∈ (lineRecs rest).map Bookmark.url :=
                  List.mem_map.mpr ⟨r, hr, rfl⟩
                rw [he] at hmem
                exact hnd1 hmem
              show aget r.url (ainsert bk.url bk
                ((pf.add_titles_char_count bk.title).add_category bk.category).1.bookmarks) = none
              rw [add_category_bms, aget_ainsert_ne hru bk]
              exact hfresh r (by simp [hr])
            · exact hnd2
            · intro r hr
              exact hbd r (by simp [hr])

theorem titleInv_new (text : Str)
    (hnd : ((parsedRecords text).map Bookmark.url).Nodup)
    (hbd : ∀ r ∈ parsedRecords text, r.title.length ≤ TITLE_MAX_LENGTH) :
    TitleInv (ParsedFile.new text) := by
  rw [parsedRecords_eq_lineRecs] at hnd hbd
  have hinv : TitleInv (parseLines 0 (rustLines text) emptyParsedFile) :=
    parseLines_titleInv (rustLines text) 0 emptyParsedFile titleInv_empty
      (fun r _ => rfl) hnd hbd
  exact hinv

/-- C2: amended bounded-width statement.  Provided every parsed record title is
at most `TITLE_MAX_LENGTH` characters, the parsed text has no two record lines
with the same URL, and the operations are applied as the callers do (`add` with
a fresh URL, `modify` passing the record stored under the old URL with the new
URL unchanged or fresh), `longest_title` always equals the maximum live title
width (0 when no record is live) - in particular removing one of several
records tied at the maximum leaves the true remaining maximum. -/
theorem longest_title_eq_max_of_bounded (text : Str) (pt : PlainText) (ops : List FOp)
    (hnd : ((parsedRecords text).map Bookmark.url).Nodup)
    (hbd : ∀ r ∈ parsedRecords text, r.title.length ≤ TITLE_MAX_LENGTH)
    (hwf : seqWfB (ParsedFile.new text, pt) ops = true) :
    (applyOps (ParsedFile.new text, pt) ops).1.longest_title =
      maxL (liveTitleLens (applyOps (ParsedFile.new text, pt) ops).1) :=
  (titleInv_ops (ParsedFile.new text, pt) ops (titleInv_new text hnd hbd) hwf).2.2.2

theorem longest_title_eq_max_of_bounded_witness :
    seqWfB (ParsedFile.new [], PlainText.new)
      [FOp.fadd bR, FOp.fadd bW, FOp.fremove bW.url] = true ∧
    (applyOps (ParsedFile.new [], PlainText.new)
      [FOp.fadd bR, FOp.fadd bW, FOp.fremove bW.url]).1.longest_title =
      maxL (liveTitleLens (applyOps (ParsedFile.new [], PlainText.new)
        [FOp.fadd bR, FOp.fadd bW, FOp.fremove bW.url]).1) :=
  ⟨by decide, longest_title_eq_max_of_bounded [] PlainText.new
    [FOp.fadd bR, FOp.fadd bW, FOp.fremove bW.url] (by decide) (by decide) (by decide)⟩

end Fmark
